import Mathlib

set_option maxHeartbeats 1000000

/-!
Verification development for the SheetObjectTemplate core of theatrecore
(src/src/sheetObjects/SheetObjectTemplate.ts).

The embedding models the data the source manipulates: JSON values (the
stored track keys are JSON-encoded property paths, decoded by the source's
parsePathToProp via JSON.parse), property-type schemas, the raw track map,
and the derived views computed by the template (the ordered valid track
list, its tree projection, static values and default lookups).

JSON numbers are modelled as integers: property-path segments are strings
or integers, and fractional or exponent number forms fall outside the
model.  Collaborator code that the repository slice does not contain
(schema walking, canonical ordering, deep get/set) is modelled from the
specification and marked as such on each definition.
-/

/-- JSON values as produced by the runtime JSON parser (numbers restricted
to integers, see the module comment). -/
inductive Json where
  | null : Json
  | bool : Bool → Json
  | num : Int → Json
  | str : String → Json
  | arr : List Json → Json
  | obj : List (String × Json) → Json

/-- A property-path segment: a string key or an integer index. -/
inductive PathSeg where
  | str : String → PathSeg
  | num : Int → PathSeg
deriving DecidableEq

/-- A property path (PathToProp in the source): the ordered segments from
the schema root to a prop. -/
abbrev PathToProp := List PathSeg

/-- Lowercase hex digit character, as emitted by JSON.stringify in
control-character escapes. -/
def hexChar (n : Nat) : Char :=
  if n < 10 then Char.ofNat (48 + n) else Char.ofNat (87 + n)

/-- Escape one character of a string literal the way JSON.stringify does:
quote and backslash get a backslash escape, the control characters with
shorthand escapes use them, other control characters use a u-escape, and
everything else is emitted verbatim. -/
def escapeChar (c : Char) : List Char :=
  if c = '"' then ['\\', '"']
  else if c = '\\' then ['\\', '\\']
  else if c = Char.ofNat 8 then ['\\', 'b']
  else if c = Char.ofNat 9 then ['\\', 't']
  else if c = Char.ofNat 10 then ['\\', 'n']
  else if c = Char.ofNat 12 then ['\\', 'f']
  else if c = Char.ofNat 13 then ['\\', 'r']
  else if c.toNat < 32 then
    ['\\', 'u', '0', '0', hexChar (c.toNat / 16), hexChar (c.toNat % 16)]
  else [c]

/-- JSON string literal rendering of a string (quotes included). -/
def encodeStringChars (s : String) : List Char :=
  '"' :: (s.data.map escapeChar).flatten ++ ['"']

/-- Big-endian decimal digit characters of a natural number. -/
def natDigits (n : Nat) : List Char :=
  if n = 0 then ['0'] else (Nat.digits 10 n).reverse.map (fun d => Char.ofNat (48 + d))

/-- Decimal rendering of an integer, as JSON.stringify renders integral
numbers. -/
def encodeIntChars (n : Int) : List Char :=
  if n < 0 then '-' :: natDigits n.natAbs else natDigits n.natAbs

/-- JSON rendering of one path segment. -/
def encodeSegChars : PathSeg → List Char
  | .str s => encodeStringChars s
  | .num n => encodeIntChars n

/-- Rendering of the remaining segments of a path array: each preceded by a
comma, then the closing bracket. -/
def encodeTailChars : List PathSeg → List Char
  | [] => [']']
  | seg :: rest => ',' :: (encodeSegChars seg ++ encodeTailChars rest)

/-- Character-level rendering of a whole path array. -/
def encodePathChars : PathToProp → List Char
  | [] => ['[', ']']
  | seg :: rest => '[' :: (encodeSegChars seg ++ encodeTailChars rest)

/-- Model of JSON.stringify on a property path: the canonical stored key of
the path, used both by the external store and by the sort comparator of
getArrayOfValidSequenceTracks. -/
def encodePath (p : PathToProp) : String := String.mk (encodePathChars p)

/-- JSON insignificant whitespace. -/
def isWsChar (c : Char) : Bool :=
  c = ' ' || c = Char.ofNat 9 || c = Char.ofNat 10 || c = Char.ofNat 13

/-- Drop leading JSON whitespace. -/
def skipWs : List Char → List Char
  | [] => []
  | c :: rest => if isWsChar c then skipWs rest else c :: rest

/-- Decimal digit test on characters. -/
def isDigitChar (c : Char) : Bool := 48 ≤ c.toNat && c.toNat ≤ 57

/-- Value of a decimal digit character. -/
def digitVal (c : Char) : Nat := c.toNat - 48

/-- Value of a hex digit character (either case), or none. -/
def hexVal (c : Char) : Option Nat :=
  if 48 ≤ c.toNat && c.toNat ≤ 57 then some (c.toNat - 48)
  else if 97 ≤ c.toNat && c.toNat ≤ 102 then some (c.toNat - 87)
  else if 65 ≤ c.toNat && c.toNat ≤ 70 then some (c.toNat - 55)
  else none

/-- Read the body of a JSON string literal after the opening quote,
returning the decoded characters and the input after the closing quote.
Unescaped control characters are rejected, escapes are decoded. -/
def parseStringBody : List Char → Option (List Char × List Char)
  | [] => none
  | c :: rest =>
    if c = '"' then some ([], rest)
    else if c = '\\' then
      match rest with
      | [] => none
      | e :: rest2 =>
        if e = '"' then (parseStringBody rest2).map (fun r => ('"' :: r.1, r.2))
        else if e = '\\' then (parseStringBody rest2).map (fun r => ('\\' :: r.1, r.2))
        else if e = '/' then (parseStringBody rest2).map (fun r => ('/' :: r.1, r.2))
        else if e = 'b' then (parseStringBody rest2).map (fun r => (Char.ofNat 8 :: r.1, r.2))
        else if e = 'f' then (parseStringBody rest2).map (fun r => (Char.ofNat 12 :: r.1, r.2))
        else if e = 'n' then (parseStringBody rest2).map (fun r => (Char.ofNat 10 :: r.1, r.2))
        else if e = 'r' then (parseStringBody rest2).map (fun r => (Char.ofNat 13 :: r.1, r.2))
        else if e = 't' then (parseStringBody rest2).map (fun r => (Char.ofNat 9 :: r.1, r.2))
        else if e = 'u' then
          match rest2 with
          | h1 :: h2 :: h3 :: h4 :: rest3 =>
            match hexVal h1, hexVal h2, hexVal h3, hexVal h4 with
            | some a, some b, some c2, some d =>
              (parseStringBody rest3).map
                (fun r => (Char.ofNat (((a * 16 + b) * 16 + c2) * 16 + d) :: r.1, r.2))
            | _, _, _, _ => none
          | _ => none
        else none
    else if c.toNat < 32 then none
    else (parseStringBody rest).map (fun r => (c :: r.1, r.2))

/-- Accumulate a run of decimal digits. -/
def parseNatAux : Nat → List Char → Nat × List Char
  | acc, [] => (acc, [])
  | acc, c :: rest =>
    if isDigitChar c then parseNatAux (acc * 10 + digitVal c) rest else (acc, c :: rest)

/-- Parse the integer part of a JSON number: a lone zero, or a nonzero
digit followed by a digit run (the JSON grammar forbids leading zeros). -/
def parseNumPart : List Char → Option (Nat × List Char)
  | [] => none
  | c :: rest =>
    if c = '0' then some (0, rest)
    else if isDigitChar c then some (parseNatAux (digitVal c) rest)
    else none

/-- Parse a JSON integer, with optional leading minus sign. -/
def parseNumber : List Char → Option (Int × List Char)
  | [] => none
  | c :: rest =>
    if c = '-' then (parseNumPart rest).map (fun r => (-(r.1 : Int), r.2))
    else (parseNumPart (c :: rest)).map (fun r => ((r.1 : Int), r.2))

mutual

/-- Recursive JSON value parser.  The fuel argument bounds the recursion
and is instantiated with the input length plus one in jsonParse, which is
enough for every input the development evaluates or reasons about. -/
def parseValue : Nat → List Char → Option (Json × List Char)
  | 0, _ => none
  | fuel + 1, input =>
    match skipWs input with
    | [] => none
    | c :: rest =>
      if c = '"' then
        match parseStringBody rest with
        | some (cs, rest2) => some (Json.str (String.mk cs), rest2)
        | none => none
      else if c = '[' then
        match skipWs rest with
        | [] => none
        | c2 :: rest2 =>
          if c2 = ']' then some (Json.arr [], rest2)
          else
            match parseValue fuel (c2 :: rest2) with
            | some (j, rest3) =>
              match parseArrTail fuel rest3 with
              | some (js, rest4) => some (Json.arr (j :: js), rest4)
              | none => none
            | none => none
      else if c = Char.ofNat 123 then
        match skipWs rest with
        | [] => none
        | c2 :: rest2 =>
          if c2 = Char.ofNat 125 then some (Json.obj [], rest2)
          else
            match parseMember fuel (c2 :: rest2) with
            | some (m, ms, rest3) => some (Json.obj (m :: ms), rest3)
            | none => none
      else if c = 'n' then
        match rest with
        | 'u' :: 'l' :: 'l' :: rest2 => some (Json.null, rest2)
        | _ => none
      else if c = 't' then
        match rest with
        | 'r' :: 'u' :: 'e' :: rest2 => some (Json.bool true, rest2)
        | _ => none
      else if c = 'f' then
        match rest with
        | 'a' :: 'l' :: 's' :: 'e' :: rest2 => some (Json.bool false, rest2)
        | _ => none
      else
        match parseNumber (c :: rest) with
        | some (n, rest2) => some (Json.num n, rest2)
        | none => none

/-- Parse one object member followed by the remaining members and the
closing brace. -/
def parseMember : Nat → List Char → Option ((String × Json) × List (String × Json) × List Char)
  | 0, _ => none
  | fuel + 1, input =>
    match input with
    | '"' :: rest =>
      match parseStringBody rest with
      | some (key, rest2) =>
        match skipWs rest2 with
        | ':' :: rest3 =>
          match parseValue fuel rest3 with
          | some (v, rest4) =>
            match parseObjTail fuel rest4 with
            | some (ms, rest5) => some ((String.mk key, v), ms, rest5)
            | none => none
          | none => none
        | _ => none
      | none => none
    | _ => none

/-- After one object member: either the closing brace or a comma and the
next member. -/
def parseObjTail : Nat → List Char → Option (List (String × Json) × List Char)
  | 0, _ => none
  | fuel + 1, input =>
    match skipWs input with
    | [] => none
    | c :: rest =>
      if c = ',' then
        match parseMember fuel (skipWs rest) with
        | some (m, ms, rest2) => some (m :: ms, rest2)
        | none => none
      else if c = Char.ofNat 125 then some ([], rest)
      else none

/-- After one array element: either the closing bracket or a comma and the
next element. -/
def parseArrTail : Nat → List Char → Option (List Json × List Char)
  | 0, _ => none
  | fuel + 1, input =>
    match skipWs input with
    | [] => none
    | c :: rest =>
      if c = ']' then some ([], rest)
      else if c = ',' then
        match parseValue fuel rest with
        | some (j, rest2) =>
          match parseArrTail fuel rest2 with
          | some (js, rest3) => some (j :: js, rest3)
          | none => none
        | none => none
      else none

end

/-- Model of JSON.parse: parse one value and require only whitespace after
it. -/
def jsonParse (s : String) : Option Json :=
  match parseValue (s.length + 1) s.data with
  | some (j, rest) => if skipWs rest = [] then some j else none
  | none => none

/-- From the source (parsePathToProp, SheetObjectTemplate.ts): JSON.parse
the stored key inside a try block, returning undefined (none) when parsing
throws.  The logger.warn call of the catch branch is modelled as the
warnings list of getArrayOfValidSequenceTracks. -/
def parsePathToProp (s : String) : Option Json := jsonParse s

/-- Read one parsed JSON value as a path segment, when it is a string or an
integer. -/
def segOfJson : Json → Option PathSeg
  | .str s => some (PathSeg.str s)
  | .num n => some (PathSeg.num n)
  | _ => none

/-- Segment-wise reading of a JSON array as a path. -/
def segsOfJsonList : List Json → Option (List PathSeg)
  | [] => some []
  | j :: js =>
    match segOfJson j with
    | some s =>
      match segsOfJsonList js with
      | some ss => some (s :: ss)
      | none => none
    | none => none

/-- Modelled from the spec: a decoded key denotes a property path only when
it is an array of string or integer segments (the SchemaWalker consumes
such paths; any other decoded value cannot resolve against the schema and
the entry is dropped). -/
def jsonToPath : Json → Option PathToProp
  | .arr xs => segsOfJsonList xs
  | _ => none

/-- Modelled from the spec: a property-type schema (PropTypeConfig).  A
node is either a composite with named children in declared order, or a
leaf prop descriptor carrying its sequencable flag and default value.
The deserialize/sanitize hook of the schema is modelled separately as a
function argument of getStaticValues. -/
inductive PropConfig where
  | comp (props : List (String × PropConfig)) : PropConfig
  | leaf (sequencable : Bool) (defaultValue : Json) : PropConfig

/-- First binding of a key in an association list. -/
def assocLookup {α : Type} : List (String × α) → String → Option α
  | [], _ => none
  | (k, v) :: rest, key => if k = key then some v else assocLookup rest key

/-- Modelled from the spec: resolveLeaf of the SchemaWalker
(getPropConfigByPath in the source imports).  Walks the schema by
consuming path segments one composite level at a time; a missing child or
a segment applied to a leaf (or an integer segment applied to named
children) is NotFound. -/
def getPropConfigByPath : PropConfig → PathToProp → Option PropConfig
  | c, [] => some c
  | PropConfig.comp props, PathSeg.str k :: rest =>
    match assocLookup props k with
    | some child => getPropConfigByPath child rest
    | none => none
  | PropConfig.comp _, PathSeg.num _ :: _ => none
  | PropConfig.leaf _ _, _ :: _ => none

/-- Modelled from the spec: isSequencable of the SchemaWalker
(isPropConfSequencable in the source imports); true exactly on leaves the
schema author marked sequencable. -/
def isPropConfSequencable : PropConfig → Bool
  | .leaf s _ => s
  | .comp _ => false

mutual

/-- Modelled from the spec: the pre-order listing of the paths of all
sequencable leaves of a schema, composite children visited in declared
order; pre is the (already reversed-free) path prefix of the node. -/
def canonicalPathsConf : PropConfig → PathToProp → List PathToProp
  | .leaf s _, pre => if s then [pre] else []
  | .comp props, pre => canonicalPathsProps props pre

/-- Pre-order listing over a composite's children. -/
def canonicalPathsProps : List (String × PropConfig) → PathToProp → List PathToProp
  | [], _ => []
  | (k, c) :: rest, pre =>
    canonicalPathsConf c (pre ++ [PathSeg.str k]) ++ canonicalPathsProps rest pre

end

/-- Keys of the canonical ordering map: the stored-key encoding of every
sequencable leaf path, in pre-order. -/
def canonicalKeys (c : PropConfig) : List String :=
  (canonicalPathsConf c []).map encodePath

/-- Association list assigning each key the next integer starting at i. -/
def orderingFrom : List String → Nat → List (String × Nat)
  | [], _ => []
  | s :: ss, i => (s, i) :: orderingFrom ss (i + 1)

/-- Modelled from the spec: canonicalOrder of the SchemaWalker
(getOrderingOfPropTypeConfig in the source imports): one full pre-order
traversal of the schema assigning each sequencable leaf the next integer
starting at 0, keyed by the JSON-stringified path. -/
def getOrderingOfPropTypeConfig (c : PropConfig) : List (String × Nat) :=
  orderingFrom (canonicalKeys c) 0

/-- One surviving entry of the valid track list: a decoded path and its
opaque track id. -/
structure TrackEntry where
  pathToProp : PathToProp
  trackId : String
deriving DecidableEq

/-- JavaScript falsiness of a parsed JSON value (the if-not check the
source applies to the decoded key before resolving it). -/
def jsFalsy : Json → Bool
  | .null => true
  | .bool b => !b
  | .num n => n = 0
  | .str s => s = ""
  | .arr _ => false
  | .obj _ => false

/-- From the source (the loop body of getArrayOfValidSequenceTracks): one
raw track-map entry survives when its key decodes to a truthy value that
is a path resolving to a sequencable leaf of the schema. -/
def entrySurvivor (cfg : PropConfig) (kv : String × String) : Option TrackEntry :=
  match parsePathToProp kv.1 with
  | none => none
  | some j =>
    if jsFalsy j then none
    else
      match jsonToPath j with
      | none => none
      | some p =>
        match getPropConfigByPath cfg p with
        | none => none
        | some pc => if isPropConfSequencable pc then some ⟨p, kv.2⟩ else none

/-- The diagnostics of one pass over the raw track map: one warning (the
offending key) per entry whose key fails to decode, in entry order. -/
def warningsOf (entries : List (String × String)) : List String :=
  entries.filterMap (fun kv => if (parsePathToProp kv.1).isNone then some kv.1 else none)

/-- From the source (the sort comparator of getArrayOfValidSequenceTracks):
look both paths up in the canonical ordering by their JSON-stringified
form and return 1 when the first index is larger, otherwise -1.  A missing
index behaves like undefined in JavaScript: every comparison with it is
false, so the comparator returns -1. -/
def trackCompare (mapping : List (String × Nat)) (a b : TrackEntry) : Int :=
  match assocLookup mapping (encodePath a.pathToProp),
        assocLookup mapping (encodePath b.pathToProp) with
  | some i, some j => if j < i then 1 else -1
  | _, _ => -1

/-- The result of one run of getArrayOfValidSequenceTracks: the ordered
surviving tracks and the diagnostics emitted while filtering. -/
structure ResolveResult where
  tracks : List TrackEntry
  warnings : List String
deriving DecidableEq

/-- From the source (getArrayOfValidSequenceTracks): an absent raw track
map yields the empty array; otherwise each entry is decoded, filtered
against the schema, and the survivors are sorted with the two-way
comparator over the canonical ordering.  The ECMAScript sort is modelled
as a deterministic comparison sort consulting only the comparator. -/
def getArrayOfValidSequenceTracks (cfg : PropConfig)
    (trackIdByPropPath : Option (List (String × String))) : ResolveResult :=
  match trackIdByPropPath with
  | none => ⟨[], []⟩
  | some entries =>
    let arrayOfIds := entries.filterMap (entrySurvivor cfg)
    let mapping := getOrderingOfPropTypeConfig cfg
    let sorted :=
      List.insertionSort (fun a b => trackCompare mapping a b ≤ 0) arrayOfIds
    if arrayOfIds.length = 0 then ⟨[], warningsOf entries⟩
    else ⟨sorted, warningsOf entries⟩

/-- The nested track-id tree (IPropPathToTrackIdTree): a leaf is a track
id, an inner node maps child names to subtrees. -/
inductive TrackTree where
  | id (trackId : String) : TrackTree
  | node (children : List (String × TrackTree)) : TrackTree

/-- Path-element coercion to a property name, as JavaScript object
indexing coerces integer path elements to strings. -/
def segKey : PathSeg → String
  | .str s => s
  | .num n => toString n

/-- Replace the binding of a key in an association list, or append it. -/
def assocSet : List (String × TrackTree) → String → TrackTree → List (String × TrackTree)
  | [], k, v => [(k, v)]
  | (k2, v2) :: rest, k, v =>
    if k2 = k then (k, v) :: rest else (k2, v2) :: assocSet rest k v

/-- Modelled from the spec: projectToTree insertion (the lodash set call of
getMapOfValidSequenceTracks_forStudio).  Inserts a track id under the path
segments, creating intermediate composite nodes as needed; a primitive
found mid-path is replaced by a fresh node; an empty path leaves the tree
unchanged. -/
def setPath : TrackTree → List String → String → TrackTree
  | t, [], _ => t
  | t, k :: rest, tid =>
    let ch := match t with
      | .node ch => ch
      | .id _ => []
    let newSub : TrackTree :=
      match rest with
      | [] => .id tid
      | _ :: _ =>
        setPath (match assocLookup ch k with
          | some s => s
          | none => .node []) rest tid
    .node (assocSet ch k newSub)

/-- Structural lookup in the track tree. -/
def treeLookup : TrackTree → List String → Option String
  | .id tid, [] => some tid
  | .node _, [] => none
  | .id _, _ :: _ => none
  | .node ch, k :: rest =>
    match assocLookup ch k with
    | some sub => treeLookup sub rest
    | none => none

/-- From the source (getMapOfValidSequenceTracks_forStudio): fold the
ordered entries into an initially empty map with the deep-set insertion. -/
def projectToTree (arr : List TrackEntry) : TrackTree :=
  arr.foldl (fun m e => setPath m (e.pathToProp.map segKey) e.trackId) (.node [])

/-- From the source: the map view is the tree projection of the ordered
valid track list. -/
def getMapOfValidSequenceTracks_forStudio (cfg : PropConfig)
    (trackIdByPropPath : Option (List (String × String))) : TrackTree :=
  projectToTree (getArrayOfValidSequenceTracks cfg trackIdByPropPath).tracks

/-- Substitution the source applies to the sanitize result: a falsy hook
result is replaced by the empty tree. -/
def sanitizedOrEmpty (r : Option Json) : Json :=
  match r with
  | none => Json.obj []
  | some v => if jsFalsy v then Json.obj [] else v

/-- From the source (getStaticValues): read the raw static-override JSON
of the object (absence and null substitute the empty object, the
nullish-coalescing default), hand it to the schema's own
deserializeAndSanitize hook, and replace a falsy hook result by the empty
tree.  The hook is an external collaborator and is passed as a function. -/
def getStaticValues (deserializeAndSanitize : Json → Option Json)
    (rawOverride : Option Json) : Json :=
  let json : Json :=
    match rawOverride with
    | none => Json.obj []
    | some Json.null => Json.obj []
    | some j => j
  sanitizedOrEmpty (deserializeAndSanitize json)

/-- Modelled from the spec: valueAtPath (the getDeep import used by
getDefaultsAtPointer): structural lookup in a nested value tree, object
nodes indexed by string segments, array nodes by integer segments;
undefined (none) when the path does not exist. -/
def getDeep : Json → PathToProp → Option Json
  | v, [] => some v
  | Json.obj fields, PathSeg.str k :: rest =>
    match assocLookup fields k with
    | some v => getDeep v rest
    | none => none
  | Json.arr xs, PathSeg.num i :: rest =>
    if i < 0 then none
    else
      match xs.get? i.toNat with
      | some v => getDeep v rest
      | none => none
  | _, _ => none

/-- From the source (getDefaultsAtPointer): look the pointer path up in
the defaults tree. -/
def getDefaultsAtPointer (defaults : Json) (path : PathToProp) : Option Json :=
  getDeep defaults path

/-- Value stored at a path of a nested value tree: the independent
characterization of path existence used to specify getDeep. -/
inductive HasPath : Json → PathToProp → Json → Prop where
  | nil (t : Json) : HasPath t [] t
  | obj {fields : List (String × Json)} {k : String} {rest : PathToProp} {t v : Json}
      (hf : assocLookup fields k = some t) (h : HasPath t rest v) :
      HasPath (Json.obj fields) (PathSeg.str k :: rest) v
  | arr {xs : List Json} {i : Int} {rest : PathToProp} {t v : Json}
      (hi : 0 ≤ i) (hg : xs.get? i.toNat = some t) (h : HasPath t rest v) :
      HasPath (Json.arr xs) (PathSeg.num i :: rest) v

/-- The instance state of a SheetObjectTemplate: its address, schema atom,
actions atom, cache identity and project reference.  The cache contents
are opaque to reconfigure and are modelled by an identifier. -/
structure SheetObjectTemplateState where
  address : List String
  config : PropConfig
  actions : List (String × String)
  cacheId : Nat
  projectId : String

/-- From the source (reconfigure): set the config atom to the new schema. -/
def reconfigure (t : SheetObjectTemplateState) (c : PropConfig) : SheetObjectTemplateState :=
  { t with config := c }

/-! ### Round trip of the path codec -/

/-- Eta for strings. -/
theorem mk_data (s : String) : String.mk s.data = s := rfl

/-- Characters with different code points differ. -/
theorem charNe_of_toNat_ne {c d : Char} (h : c.toNat ≠ d.toNat) : c ≠ d :=
  fun he => h (by rw [he])

/-- hexVal inverts hexChar on hex digits. -/
theorem hexVal_hexChar {d : Nat} (h : d < 16) : hexVal (hexChar d) = some d := by
  interval_cases d <;> rfl

/-- Leading non-whitespace is kept by skipWs. -/
theorem skipWs_cons {c : Char} {l : List Char} (h : isWsChar c = false) :
    skipWs (c :: l) = c :: l := by
  simp [skipWs, h]

/-- parseStringBody inverts the JSON.stringify escaping. -/
theorem parseStringBody_escape : ∀ (cs rest : List Char),
    parseStringBody ((cs.map escapeChar).flatten ++ ('"' :: rest)) = some (cs, rest) := by
  intro cs
  induction cs with
  | nil =>
    intro rest
    rw [parseStringBody.eq_def]
    simp
  | cons c cs ih =>
    intro rest
    by_cases h1 : c = '"'
    · subst h1
      simp only [escapeChar, List.map_cons, List.flatten_cons, List.cons_append,
        List.append_assoc, if_true, reduceIte]
      rw [parseStringBody.eq_def]
      simp [ih]
    by_cases h2 : c = '\\'
    · subst h2
      simp only [escapeChar, List.map_cons, List.flatten_cons, List.cons_append,
        List.append_assoc, reduceIte]
      rw [parseStringBody.eq_def]
      simp [ih]
    by_cases h3 : c = Char.ofNat 8
    · subst h3
      simp only [escapeChar, List.map_cons, List.flatten_cons, List.cons_append,
        List.append_assoc, reduceIte]
      rw [parseStringBody.eq_def]
      simp [ih]
    by_cases h4 : c = Char.ofNat 9
    · subst h4
      simp only [escapeChar, List.map_cons, List.flatten_cons, List.cons_append,
        List.append_assoc, reduceIte]
      rw [parseStringBody.eq_def]
      simp [ih]
    by_cases h5 : c = Char.ofNat 10
    · subst h5
      simp only [escapeChar, List.map_cons, List.flatten_cons, List.cons_append,
        List.append_assoc, reduceIte]
      rw [parseStringBody.eq_def]
      simp [ih]
    by_cases h6 : c = Char.ofNat 12
    · subst h6
      simp only [escapeChar, List.map_cons, List.flatten_cons, List.cons_append,
        List.append_assoc, reduceIte]
      rw [parseStringBody.eq_def]
      simp [ih]
    by_cases h7 : c = Char.ofNat 13
    · subst h7
      simp only [escapeChar, List.map_cons, List.flatten_cons, List.cons_append,
        List.append_assoc, reduceIte]
      rw [parseStringBody.eq_def]
      simp [ih]
    by_cases h8 : c.toNat < 32
    · have hhi : c.toNat / 16 < 16 := by omega
      have hlo : c.toNat % 16 < 16 := by omega
      have h0 : hexVal '0' = some 0 := rfl
      have harith : c.toNat / 16 * 16 + c.toNat % 16 = c.toNat := by
        omega
      simp only [escapeChar, h1, h2, h3, h4, h5, h6, h7, h8, if_true, if_false,
        ite_true, ite_false, List.map_cons, List.flatten_cons, List.cons_append,
        List.append_assoc]
      rw [parseStringBody.eq_def]
      simp [h0, hexVal_hexChar hhi, hexVal_hexChar hlo, harith, Char.ofNat_toNat, ih]
    · simp only [escapeChar, h1, h2, h3, h4, h5, h6, h7, h8, if_false, ite_false,
        List.map_cons, List.flatten_cons, List.cons_append,
        List.append_assoc]
      rw [parseStringBody.eq_def]
      simp [h1, h2, h8, ih]

/-- Code point of a digit character. -/
theorem toNat_digitChar {d : Nat} (h : d < 10) : (Char.ofNat (48 + d)).toNat = 48 + d := by
  interval_cases d <;> rfl

/-- digitVal inverts the digit rendering. -/
theorem digitVal_digitChar {d : Nat} (h : d < 10) : digitVal (Char.ofNat (48 + d)) = d := by
  interval_cases d <;> rfl

/-- Digit characters pass the digit test. -/
theorem isDigitChar_digitChar {d : Nat} (h : d < 10) :
    isDigitChar (Char.ofNat (48 + d)) = true := by
  interval_cases d <;> rfl

/-- parseNatAux consumes exactly a rendered digit run. -/
theorem parseNatAux_digits : ∀ (L : List Nat) (acc : Nat) (rest : List Char),
    (∀ d ∈ L, d < 10) → (∀ c, rest.head? = some c → isDigitChar c = false) →
    parseNatAux acc (L.map (fun d => Char.ofNat (48 + d)) ++ rest)
      = (L.foldl (fun a d => a * 10 + d) acc, rest) := by
  intro L
  induction L with
  | nil =>
    intro acc rest _ hrest
    cases rest with
    | nil => rfl
    | cons c r =>
      have : isDigitChar c = false := hrest c rfl
      simp [parseNatAux, this]
  | cons d L ih =>
    intro acc rest hL hrest
    have hd : d < 10 := hL d (by simp)
    simp only [List.map_cons, List.cons_append, parseNatAux,
      isDigitChar_digitChar hd, digitVal_digitChar hd, if_true, List.foldl_cons]
    exact ih (acc * 10 + d) rest (fun e he => hL e (by simp [he])) hrest

/-- Folding digits from the most significant end computes the number. -/
theorem foldl_digits_eq_ofDigits : ∀ (L : List Nat) (acc : Nat),
    L.reverse.foldl (fun a d => a * 10 + d) acc = acc * 10 ^ L.length + Nat.ofDigits 10 L := by
  intro L
  induction L with
  | nil => intro acc; simp [Nat.ofDigits]
  | cons d L ih =>
    intro acc
    simp only [List.reverse_cons, List.foldl_append, List.foldl_cons, List.foldl_nil,
      ih, Nat.ofDigits_cons, List.length_cons]
    ring

/-- All characters of natDigits are digit characters. -/
theorem natDigits_all_digit (n : Nat) : ∀ c ∈ natDigits n, isDigitChar c = true := by
  intro c hc
  by_cases hn : n = 0
  · subst hn
    simp [natDigits] at hc
    subst hc
    rfl
  · simp only [natDigits, hn, if_false, ite_false, List.mem_map, List.mem_reverse] at hc
    obtain ⟨d, hd, rfl⟩ := hc
    exact isDigitChar_digitChar (Nat.digits_lt_base (by omega) hd)

/-- natDigits is never empty. -/
theorem natDigits_ne_nil (n : Nat) : natDigits n ≠ [] := by
  by_cases hn : n = 0
  · subst hn; simp [natDigits]
  · simp [natDigits, hn, Nat.digits_ne_nil_iff_ne_zero]

/-- parseNumPart consumes exactly a rendered natural number. -/
theorem parseNumPart_natDigits (n : Nat) (rest : List Char)
    (hrest : ∀ c, rest.head? = some c → isDigitChar c = false) :
    parseNumPart (natDigits n ++ rest) = some (n, rest) := by
  by_cases hn : n = 0
  · subst hn
    simp [natDigits, parseNumPart]
  · have hnil : Nat.digits 10 n ≠ [] := Nat.digits_ne_nil_iff_ne_zero.mpr hn
    have hrnil : (Nat.digits 10 n).reverse ≠ [] := by simpa using hnil
    obtain ⟨m, M, hM⟩ := List.exists_cons_of_ne_nil hrnil
    have hhead : (Nat.digits 10 n).getLast? = some m := by
      rw [← List.head?_reverse, hM]
      rfl
    have hm10 : m < 10 := by
      have : m ∈ Nat.digits 10 n := by
        rw [← List.mem_reverse, hM]; simp
      exact Nat.digits_lt_base (by omega) this
    have hm0 : m ≠ 0 := by
      rw [List.getLast?_eq_getLast _ hnil] at hhead
      have hinj : (Nat.digits 10 n).getLast hnil = m := by
        exact Option.some_injective _ hhead
      rw [← hinj]
      exact Nat.getLast_digit_ne_zero 10 hn
    have hfold : M.foldl (fun a d => a * 10 + d) m = n := by
      have h1 : (m :: M).foldl (fun a d => a * 10 + d) 0 = M.foldl (fun a d => a * 10 + d) m := by
        simp
      have h2 : (Nat.digits 10 n).reverse.foldl (fun a d => a * 10 + d) 0 = n := by
        rw [foldl_digits_eq_ofDigits]
        simp [Nat.ofDigits_digits]
      rw [← h1, ← hM, h2]
    have hne0 : Char.ofNat (48 + m) ≠ '0' := by
      apply charNe_of_toNat_ne
      rw [toNat_digitChar hm10]
      intro hcontra
      have h0 : ('0' : Char).toNat = 48 := rfl
      omega
    have hMd : ∀ d ∈ M, d < 10 := by
      intro d hd
      have : d ∈ Nat.digits 10 n := by
        rw [← List.mem_reverse, hM]; simp [hd]
      exact Nat.digits_lt_base (by omega) this
    calc parseNumPart (natDigits n ++ rest)
        = parseNumPart (Char.ofNat (48 + m) :: (M.map (fun d => Char.ofNat (48 + d)) ++ rest)) := by
          simp [natDigits, hn, hM]
      _ = some (n, rest) := by
          simp only [parseNumPart, hne0, isDigitChar_digitChar hm10,
            digitVal_digitChar hm10, if_false, if_true, ite_false, ite_true]
          rw [parseNatAux_digits M m rest hMd hrest, hfold]

/-- parseNumber consumes exactly a rendered integer. -/
theorem parseNumber_encodeInt (n : Int) (rest : List Char)
    (hrest : ∀ c, rest.head? = some c → isDigitChar c = false) :
    parseNumber (encodeIntChars n ++ rest) = some (n, rest) := by
  by_cases hn : n < 0
  · simp only [encodeIntChars, hn, if_true, ite_true, List.cons_append, parseNumber,
      reduceIte, parseNumPart_natDigits n.natAbs rest hrest]
    have habs : -((n.natAbs : Nat) : Int) = n := by omega
    show some (-((n.natAbs : Nat) : Int), rest) = some (n, rest)
    rw [habs]
  · have henc : encodeIntChars n = natDigits n.natAbs := by
      simp [encodeIntChars, hn]
    obtain ⟨c, cs, hc⟩ := List.exists_cons_of_ne_nil (natDigits_ne_nil n.natAbs)
    have hdig : isDigitChar c = true := natDigits_all_digit n.natAbs c (by rw [hc]; simp)
    have hcm : c ≠ '-' := by
      apply charNe_of_toNat_ne
      simp only [isDigitChar, Bool.and_eq_true, decide_eq_true_eq] at hdig
      have h45 : ('-' : Char).toNat = 45 := rfl
      omega
    have hsplit : encodeIntChars n ++ rest = c :: (cs ++ rest) := by
      rw [henc, hc]
      rfl
    have hback : c :: (cs ++ rest) = natDigits n.natAbs ++ rest := by
      rw [hc]
      rfl
    rw [hsplit]
    simp only [parseNumber, hcm, if_false, ite_false]
    rw [hback, parseNumPart_natDigits n.natAbs rest hrest]
    have habs : ((n.natAbs : Nat) : Int) = n := by omega
    simp [habs]

/-- The JSON form of one path segment. -/
def pathSegJson : PathSeg → Json
  | .str s => Json.str s
  | .num n => Json.num n

/-- segOfJson inverts pathSegJson. -/
theorem segOfJson_pathSegJson (seg : PathSeg) : segOfJson (pathSegJson seg) = some seg := by
  cases seg <;> rfl

/-- The head character of a rendered integer is a minus sign or a digit. -/
theorem encodeInt_head (n : Int) {c : Char} {cs : List Char}
    (h : encodeIntChars n = c :: cs) :
    c.toNat = 45 ∨ (48 ≤ c.toNat ∧ c.toNat ≤ 57) := by
  by_cases hn : n < 0
  · simp only [encodeIntChars, hn, if_true, ite_true] at h
    have : c = '-' := by
      have := congrArg List.head? h
      simpa using this.symm
    left
    rw [this]
    rfl
  · simp only [encodeIntChars, hn, if_false, ite_false] at h
    have hdig : isDigitChar c = true := natDigits_all_digit n.natAbs c (by rw [h]; simp)
    simp only [isDigitChar, Bool.and_eq_true, decide_eq_true_eq] at hdig
    right
    exact hdig

/-- A minus sign or digit is not whitespace and not a structural JSON
character. -/
theorem numHead_facts {c : Char} (h : c.toNat = 45 ∨ (48 ≤ c.toNat ∧ c.toNat ≤ 57)) :
    isWsChar c = false ∧ c ≠ '"' ∧ c ≠ '[' ∧ c ≠ ']' ∧ c ≠ Char.ofNat 123 ∧
      c ≠ 'n' ∧ c ≠ 't' ∧ c ≠ 'f' := by
  have hsp : (' ' : Char).toNat = 32 := rfl
  have ht9 : (Char.ofNat 9).toNat = 9 := rfl
  have ht10 : (Char.ofNat 10).toNat = 10 := rfl
  have ht13 : (Char.ofNat 13).toNat = 13 := rfl
  have hq : ('"' : Char).toNat = 34 := rfl
  have hlb : ('[' : Char).toNat = 91 := rfl
  have hrb : (']' : Char).toNat = 93 := rfl
  have hbr : (Char.ofNat 123).toNat = 123 := rfl
  have hn : ('n' : Char).toNat = 110 := rfl
  have htt : ('t' : Char).toNat = 116 := rfl
  have hf : ('f' : Char).toNat = 102 := rfl
  refine ⟨?_, ?_, ?_, ?_, ?_, ?_, ?_, ?_⟩
  · simp only [isWsChar, Bool.or_eq_false_iff, decide_eq_false_iff_not]
    refine ⟨⟨⟨?_, ?_⟩, ?_⟩, ?_⟩ <;> (apply charNe_of_toNat_ne; omega)
  all_goals apply charNe_of_toNat_ne; omega

/-- The tail rendering of a path never starts with a digit. -/
theorem encodeTail_head_notDigit (segs : List PathSeg) (r : List Char) :
    ∀ c, (encodeTailChars segs ++ r).head? = some c → isDigitChar c = false := by
  intro c hc
  cases segs with
  | nil =>
    simp only [encodeTailChars, List.cons_append, List.head?_cons, Option.some_inj] at hc
    subst hc
    rfl
  | cons seg segs =>
    simp only [encodeTailChars, List.cons_append, List.head?_cons, Option.some_inj] at hc
    subst hc
    rfl

/-- parseValue consumes exactly a rendered path segment (with any positive
fuel), provided no digit follows it. -/
theorem parseValue_encodeSeg (fuel : Nat) (seg : PathSeg) (rest : List Char)
    (hrest : ∀ c, rest.head? = some c → isDigitChar c = false) :
    parseValue (fuel + 1) (encodeSegChars seg ++ rest) = some (pathSegJson seg, rest) := by
  cases seg with
  | str s =>
    have hq : isWsChar '"' = false := rfl
    calc parseValue (fuel + 1) (encodeSegChars (PathSeg.str s) ++ rest)
        = parseValue (fuel + 1) ('"' :: ((s.data.map escapeChar).flatten ++ ('"' :: rest))) := by
          simp [encodeSegChars, encodeStringChars]
      _ = some (pathSegJson (PathSeg.str s), rest) := by
          rw [parseValue.eq_def]
          simp only [skipWs_cons hq, reduceIte, parseStringBody_escape s.data rest]
          simp [pathSegJson, mk_data]
  | num n =>
    have hex : ∃ c cs, encodeIntChars n = c :: cs := by
      cases he : encodeIntChars n with
      | nil =>
        exfalso
        by_cases hn : n < 0
        · simp [encodeIntChars, hn] at he
        · simp only [encodeIntChars, hn, if_false, ite_false] at he
          exact natDigits_ne_nil n.natAbs he
      | cons c cs => exact ⟨c, cs, rfl⟩
    obtain ⟨c, cs, hc⟩ := hex
    have hhead := encodeInt_head n hc
    obtain ⟨hws, hq, hlb, hrbr, hbr, hn2, ht2, hf2⟩ := numHead_facts hhead
    have hsplit : encodeSegChars (PathSeg.num n) ++ rest = c :: (cs ++ rest) := by
      simp [encodeSegChars, hc]
    rw [hsplit, parseValue.eq_def]
    simp only [skipWs_cons hws, hq, hlb, hbr, hn2, ht2, hf2, if_false, ite_false]
    have hback : c :: (cs ++ rest) = encodeIntChars n ++ rest := by
      rw [hc]
      rfl
    rw [hback, parseNumber_encodeInt n rest hrest]
    rfl

/-- parseArrTail consumes exactly the rendered tail of a path array, given
fuel at least the number of remaining segments plus one. -/
theorem parseArrTail_encodeTail : ∀ (segs : List PathSeg) (fuel : Nat) (rest : List Char),
    parseArrTail (segs.length + fuel + 1) (encodeTailChars segs ++ rest)
      = some (segs.map pathSegJson, rest) := by
  intro segs
  induction segs with
  | nil =>
    intro fuel rest
    have hws : isWsChar ']' = false := rfl
    simp only [List.length_nil, Nat.zero_add, encodeTailChars, List.cons_append]
    rw [parseArrTail.eq_def]
    simp [skipWs_cons hws]
  | cons seg segs ih =>
    intro fuel rest
    have hws : isWsChar ',' = false := rfl
    have hlen : (seg :: segs).length + fuel + 1 = (segs.length + (fuel + 1) + 1) := by
      simp [List.length_cons]
      omega
    rw [hlen]
    simp only [encodeTailChars, List.cons_append, List.append_assoc]
    rw [parseArrTail.eq_def]
    simp only [skipWs_cons hws, reduceIte]
    have hseg := parseValue_encodeSeg (segs.length + fuel)
      seg (encodeTailChars segs ++ rest) (encodeTail_head_notDigit segs rest)
    have hfm : segs.length + fuel + 1 = segs.length + (fuel + 1) := by omega
    rw [hfm] at hseg
    rw [hseg]
    have htail := ih fuel rest
    rw [hfm] at htail
    simp [htail]

/-- parseValue consumes exactly a rendered path array, given fuel at least
the number of segments plus two. -/
theorem parseValue_encodePath (p : PathToProp) (fuel : Nat) (rest : List Char) :
    parseValue (p.length + fuel + 2) (encodePathChars p ++ rest)
      = some (Json.arr (p.map pathSegJson), rest) := by
  cases p with
  | nil =>
    have hws : isWsChar '[' = false := rfl
    have hws2 : isWsChar ']' = false := rfl
    simp only [encodePathChars, List.length_nil, Nat.zero_add, List.cons_append]
    rw [parseValue.eq_def]
    simp [skipWs_cons hws, skipWs_cons hws2]
  | cons seg segs =>
    have hws : isWsChar '[' = false := rfl
    have hex : ∃ c cs, encodeSegChars seg = c :: cs := by
      cases seg with
      | str s => exact ⟨'"', _, rfl⟩
      | num n =>
        cases he : encodeIntChars n with
        | nil =>
          exfalso
          by_cases hn : n < 0
          · simp [encodeIntChars, hn] at he
          · simp only [encodeIntChars, hn, if_false, ite_false] at he
            exact natDigits_ne_nil n.natAbs he
        | cons c cs => exact ⟨c, cs, by simp [encodeSegChars, he]⟩
    obtain ⟨c, cs, hc⟩ := hex
    have hcfacts : isWsChar c = false ∧ c ≠ ']' := by
      cases seg with
      | str s =>
        have hcq : c = '"' := by
          have h2 := congrArg List.head? hc
          simp [encodeSegChars, encodeStringChars] at h2
          exact h2.symm
        subst hcq
        exact ⟨rfl, by decide⟩
      | num n =>
        have hint : encodeIntChars n = c :: cs := by
          simpa [encodeSegChars] using hc
        have hhead := encodeInt_head n hint
        obtain ⟨hws2, _, _, hrb, _, _, _, _⟩ := numHead_facts hhead
        exact ⟨hws2, hrb⟩
    obtain ⟨hwc, hcrb⟩ := hcfacts
    have hlen : (seg :: segs).length + fuel + 2 = (segs.length + fuel + 2) + 1 := by
      simp [List.length_cons]
      omega
    rw [hlen]
    simp only [encodePathChars, List.cons_append, List.append_assoc]
    rw [parseValue.eq_def]
    simp only [skipWs_cons hws, reduceIte]
    rw [hc]
    simp only [List.cons_append, skipWs_cons hwc, hcrb, if_false, ite_false]
    have hseg := parseValue_encodeSeg (segs.length + fuel + 1) seg
      (encodeTailChars segs ++ rest) (encodeTail_head_notDigit segs rest)
    rw [hc] at hseg
    simp only [List.cons_append] at hseg
    have hfm : segs.length + fuel + 1 + 1 = segs.length + fuel + 2 := by omega
    rw [hfm] at hseg
    rw [hseg]
    have htail := parseArrTail_encodeTail segs (fuel + 1) rest
    have hfm2 : segs.length + (fuel + 1) + 1 = segs.length + fuel + 2 := by omega
    rw [hfm2] at htail
    simp [htail]

/-- A rendered segment is nonempty. -/
theorem encodeSegChars_ne_nil (seg : PathSeg) : encodeSegChars seg ≠ [] := by
  cases seg with
  | str s => simp [encodeSegChars, encodeStringChars]
  | num n =>
    by_cases hn : n < 0
    · simp [encodeSegChars, encodeIntChars, hn]
    · simpa [encodeSegChars, encodeIntChars, hn] using natDigits_ne_nil n.natAbs

/-- The rendered tail of a path is at least one character per segment plus
the closing bracket. -/
theorem encodeTail_length : ∀ segs : List PathSeg,
    segs.length + 1 ≤ (encodeTailChars segs).length := by
  intro segs
  induction segs with
  | nil => simp [encodeTailChars]
  | cons seg segs ih =>
    have h1 : 1 ≤ (encodeSegChars seg).length :=
      List.length_pos.mpr (encodeSegChars_ne_nil seg)
    simp only [encodeTailChars, List.length_cons, List.length_append]
    omega

/-- A rendered path is longer than its segment count. -/
theorem encodePath_length (p : PathToProp) :
    p.length + 1 ≤ (encodePathChars p).length := by
  cases p with
  | nil => simp [encodePathChars]
  | cons seg segs =>
    have h1 : 1 ≤ (encodeSegChars seg).length :=
      List.length_pos.mpr (encodeSegChars_ne_nil seg)
    have h2 := encodeTail_length segs
    simp only [encodePathChars, List.length_cons, List.length_append]
    omega

/-- JSON.parse inverts JSON.stringify on property paths. -/
theorem jsonParse_encodePath (p : PathToProp) :
    jsonParse (encodePath p) = some (Json.arr (p.map pathSegJson)) := by
  have hlen : (encodePath p).length = (encodePathChars p).length := rfl
  have hdata : (encodePath p).data = encodePathChars p := rfl
  have hge := encodePath_length p
  have hfuel : (encodePath p).length + 1
      = p.length + ((encodePathChars p).length - p.length - 1) + 2 := by
    rw [hlen]
    omega
  rw [jsonParse, hdata, hfuel]
  have hpv := parseValue_encodePath p ((encodePathChars p).length - p.length - 1) []
  rw [List.append_nil] at hpv
  rw [hpv]
  rfl

/-- jsonToPath inverts the JSON form of a path. -/
theorem jsonToPath_pathSegJson (p : PathToProp) :
    jsonToPath (Json.arr (p.map pathSegJson)) = some p := by
  simp only [jsonToPath]
  induction p with
  | nil => rfl
  | cons seg segs ih =>
    simp only [List.map_cons, segsOfJsonList, segOfJson_pathSegJson]
    rw [show segsOfJsonList (segs.map pathSegJson) = some segs from ih]

/-- Decoding a stored key produced by the canonical encoder yields the
original path. -/
theorem decode_encodePath (p : PathToProp) :
    (parsePathToProp (encodePath p)).bind jsonToPath = some p := by
  rw [parsePathToProp, jsonParse_encodePath]
  simpa using jsonToPath_pathSegJson p

/-- The canonical encoder is injective. -/
theorem encodePath_injective : Function.Injective encodePath := by
  intro p q h
  have hp := decode_encodePath p
  have hq := decode_encodePath q
  rw [h] at hp
  rw [hp] at hq
  exact Option.some_injective _ hq

/-! ### Canonical ordering -/

/-- Paths listed for a looked-up child are listed for the composite. -/
theorem canonicalPathsProps_sub {props : List (String × PropConfig)} {k : String}
    {child : PropConfig} (h : assocLookup props k = some child) :
    ∀ (pre : PathToProp) (q : PathToProp),
      q ∈ canonicalPathsConf child (pre ++ [PathSeg.str k]) →
      q ∈ canonicalPathsProps props pre := by
  induction props with
  | nil => intro pre q hq; simp [assocLookup] at h
  | cons kv props ih =>
    intro pre q hq
    obtain ⟨k0, c0⟩ := kv
    by_cases hk : k0 = k
    · subst hk
      simp only [assocLookup, if_true, ite_true, Option.some_inj] at h
      subst h
      simp only [canonicalPathsProps, List.mem_append]
      exact Or.inl hq
    · simp only [assocLookup, hk, if_false, ite_false] at h
      simp only [canonicalPathsProps, List.mem_append]
      exact Or.inr (ih h pre q hq)

/-- A path resolving to a sequencable leaf is listed by the canonical
pre-order traversal. -/
theorem mem_canonicalPaths_of_resolve : ∀ (p : PathToProp) (cfg : PropConfig)
    (pre : PathToProp) (d : Json),
    getPropConfigByPath cfg p = some (PropConfig.leaf true d) →
    (pre ++ p) ∈ canonicalPathsConf cfg pre := by
  intro p
  induction p with
  | nil =>
    intro cfg pre d h
    simp only [getPropConfigByPath, Option.some_inj] at h
    subst h
    simp [canonicalPathsConf]
  | cons seg rest ih =>
    intro cfg pre d h
    cases cfg with
    | leaf s dv => simp [getPropConfigByPath] at h
    | comp props =>
      cases seg with
      | num n => simp [getPropConfigByPath] at h
      | str k =>
        simp only [getPropConfigByPath] at h
        cases hl : assocLookup props k with
        | none => rw [hl] at h; simp at h
        | some child =>
          rw [hl] at h
          have hmem := ih child (pre ++ [PathSeg.str k]) d h
          have heq : pre ++ (PathSeg.str k :: rest) = (pre ++ [PathSeg.str k]) ++ rest := by
            simp
          rw [heq]
          exact canonicalPathsProps_sub hl pre _ hmem

/-- Keys present in the listing have an index. -/
theorem assocLookup_orderingFrom_isSome : ∀ (ss : List String) (i : Nat) (k : String),
    k ∈ ss → (assocLookup (orderingFrom ss i) k).isSome := by
  intro ss
  induction ss with
  | nil => intro i k hk; simp at hk
  | cons s ss ih =>
    intro i k hk
    by_cases hs : s = k
    · simp [orderingFrom, assocLookup, hs]
    · have : k ∈ ss := by
        cases hk with
        | head => exact absurd rfl hs
        | tail _ h => exact h
      simp only [orderingFrom, assocLookup, hs, if_false, ite_false]
      exact ih (i + 1) k this

/-- Indices assigned from i are at least i. -/
theorem assocLookup_orderingFrom_ge : ∀ (ss : List String) (i : Nat) (k : String) (v : Nat),
    assocLookup (orderingFrom ss i) k = some v → i ≤ v := by
  intro ss
  induction ss with
  | nil => intro i k v h; simp [orderingFrom, assocLookup] at h
  | cons s ss ih =>
    intro i k v h
    by_cases hs : s = k
    · simp only [orderingFrom, assocLookup, hs, if_true, ite_true, Option.some_inj] at h
      omega
    · simp only [orderingFrom, assocLookup, hs, if_false, ite_false] at h
      have := ih (i + 1) k v h
      omega

/-- Distinct keys receive distinct indices. -/
theorem assocLookup_orderingFrom_inj : ∀ (ss : List String) (i : Nat) (k1 k2 : String)
    (v1 v2 : Nat), k1 ≠ k2 →
    assocLookup (orderingFrom ss i) k1 = some v1 →
    assocLookup (orderingFrom ss i) k2 = some v2 → v1 ≠ v2 := by
  intro ss
  induction ss with
  | nil => intro i k1 k2 v1 v2 hne h1 h2; simp [orderingFrom, assocLookup] at h1
  | cons s ss ih =>
    intro i k1 k2 v1 v2 hne h1 h2
    by_cases hs1 : s = k1
    · subst hs1
      simp only [orderingFrom, assocLookup, if_true, ite_true, Option.some_inj] at h1
      have hs2 : ¬(s = k2) := hne
      simp only [orderingFrom, assocLookup, hs2, if_false, ite_false] at h2
      have := assocLookup_orderingFrom_ge ss (i + 1) k2 v2 h2
      omega
    · simp only [orderingFrom, assocLookup, hs1, if_false, ite_false] at h1
      by_cases hs2 : s = k2
      · subst hs2
        simp only [orderingFrom, assocLookup, if_true, ite_true, Option.some_inj] at h2
        have := assocLookup_orderingFrom_ge ss (i + 1) k1 v1 h1
        omega
      · simp only [orderingFrom, assocLookup, hs2, if_false, ite_false] at h2
        exact ih (i + 1) k1 k2 v1 v2 hne h1 h2

/-- A surviving entry decodes from the key and resolves to a sequencable
leaf. -/
theorem entrySurvivor_some {cfg : PropConfig} {kv : String × String} {e : TrackEntry}
    (h : entrySurvivor cfg kv = some e) :
    (parsePathToProp kv.1).bind jsonToPath = some e.pathToProp ∧
      e.trackId = kv.2 ∧
      ∃ d, getPropConfigByPath cfg e.pathToProp = some (PropConfig.leaf true d) := by
  unfold entrySurvivor at h
  cases hp : parsePathToProp kv.1 with
  | none => simp [hp] at h
  | some j =>
    simp only [hp] at h
    cases hf : jsFalsy j with
    | true => simp [hf] at h
    | false =>
      simp only [hf, Bool.false_eq_true, if_false, ite_false] at h
      cases hj : jsonToPath j with
      | none => simp [hj] at h
      | some p =>
        simp only [hj] at h
        cases hc : getPropConfigByPath cfg p with
        | none => simp [hc] at h
        | some pc =>
          simp only [hc] at h
          cases pc with
          | comp props => simp [isPropConfSequencable] at h
          | leaf sq d =>
            cases sq with
            | false => simp [isPropConfSequencable] at h
            | true =>
              simp only [isPropConfSequencable, if_true, ite_true, Option.some_inj] at h
              subst h
              exact ⟨by simp [hj], rfl, d, hc⟩

/-- Every surviving entry has a canonical index. -/
theorem survivor_lookup_isSome {cfg : PropConfig} {kv : String × String} {e : TrackEntry}
    (h : entrySurvivor cfg kv = some e) :
    (assocLookup (getOrderingOfPropTypeConfig cfg) (encodePath e.pathToProp)).isSome := by
  obtain ⟨-, -, d, hres⟩ := entrySurvivor_some h
  have hmem := mem_canonicalPaths_of_resolve e.pathToProp cfg [] d hres
  simp only [List.nil_append] at hmem
  apply assocLookup_orderingFrom_isSome
  exact List.mem_map_of_mem encodePath hmem

/-! ### Sorting -/

/-- Canonical index of a surviving entry under a schema. -/
def canonIdx (cfg : PropConfig) (e : TrackEntry) : Option Nat :=
  assocLookup (getOrderingOfPropTypeConfig cfg) (encodePath e.pathToProp)

/-- Canonical index with the undefined default. -/
def keyN (cfg : PropConfig) (e : TrackEntry) : Nat := (canonIdx cfg e).getD 0

/-- On entries with an index, the two-way comparator orders by index. -/
theorem trackCompare_le_iff {cfg : PropConfig} {a b : TrackEntry} {i j : Nat}
    (ha : canonIdx cfg a = some i) (hb : canonIdx cfg b = some j) :
    (trackCompare (getOrderingOfPropTypeConfig cfg) a b ≤ 0 ↔ keyN cfg a ≤ keyN cfg b) := by
  unfold canonIdx at ha hb
  unfold trackCompare keyN canonIdx
  rw [ha, hb]
  simp only [Option.getD_some]
  by_cases hij : j < i
  · rw [if_pos hij]
    constructor <;> (intro h2; omega)
  · rw [if_neg hij]
    constructor <;> (intro h2; omega)

/-- orderedInsert only consults the relation on the inserted element and
members of the list. -/
theorem orderedInsert_congr {α : Type} {r r2 : α → α → Prop}
    [DecidableRel r] [DecidableRel r2] (a : α) :
    ∀ l : List α, (∀ b ∈ l, (r a b ↔ r2 a b)) →
    List.orderedInsert r a l = List.orderedInsert r2 a l := by
  intro l
  induction l with
  | nil => intro _; rfl
  | cons b l ih =>
    intro hm
    have hab : r a b ↔ r2 a b := hm b (by simp)
    by_cases hr : r a b
    · simp [List.orderedInsert, hr, hab.mp hr]
    · have hr2 : ¬ r2 a b := fun h2 => hr (hab.mpr h2)
      simp only [List.orderedInsert, hr, hr2, if_false, ite_false]
      rw [ih (fun c hc => hm c (by simp [hc]))]

/-- insertionSort only consults the relation on pairs of list members. -/
theorem insertionSort_congr {α : Type} {r r2 : α → α → Prop}
    [DecidableRel r] [DecidableRel r2] :
    ∀ l : List α, (∀ a ∈ l, ∀ b ∈ l, (r a b ↔ r2 a b)) →
    List.insertionSort r l = List.insertionSort r2 l := by
  intro l
  induction l with
  | nil => intro _; rfl
  | cons a l ih =>
    intro hm
    simp only [List.insertionSort]
    rw [ih (fun x hx y hy => hm x (by simp [hx]) y (by simp [hy]))]
    apply orderedInsert_congr
    intro b hb
    have hbl : b ∈ l := (List.perm_insertionSort r2 l).mem_iff.mp hb
    exact hm a (by simp) b (by simp [hbl])

/-- The tracks of the array view are the insertion sort of the survivors. -/
theorem tracks_eq_insertionSort (cfg : PropConfig) (entries : List (String × String)) :
    (getArrayOfValidSequenceTracks cfg (some entries)).tracks
      = List.insertionSort
          (fun a b => trackCompare (getOrderingOfPropTypeConfig cfg) a b ≤ 0)
          (entries.filterMap (entrySurvivor cfg)) := by
  simp only [getArrayOfValidSequenceTracks]
  by_cases h : (entries.filterMap (entrySurvivor cfg)).length = 0
  · have hnil : entries.filterMap (entrySurvivor cfg) = [] := List.length_eq_zero.mp h
    simp [h, hnil]
  · simp [h]

/-- Survivors of a pass all carry a canonical index. -/
theorem survivors_idx_isSome (cfg : PropConfig) (entries : List (String × String)) :
    ∀ e ∈ entries.filterMap (entrySurvivor cfg), ∃ i, canonIdx cfg e = some i := by
  intro e he
  obtain ⟨kv, _, hkv⟩ := List.mem_filterMap.mp he
  have := survivor_lookup_isSome hkv
  exact Option.isSome_iff_exists.mp this

/-- The array view is sorted ascending by canonical index. -/
theorem tracks_sorted (cfg : PropConfig) (tm : Option (List (String × String))) :
    (getArrayOfValidSequenceTracks cfg tm).tracks.Pairwise
      (fun a b => ∃ i j, canonIdx cfg a = some i ∧ canonIdx cfg b = some j ∧ i ≤ j) := by
  cases tm with
  | none => simp [getArrayOfValidSequenceTracks]
  | some entries =>
    rw [tracks_eq_insertionSort]
    set S := entries.filterMap (entrySurvivor cfg) with hS
    have hidx := survivors_idx_isSome cfg entries
    rw [← hS] at hidx
    have hcong : List.insertionSort
        (fun a b => trackCompare (getOrderingOfPropTypeConfig cfg) a b ≤ 0) S
        = List.insertionSort (fun a b => keyN cfg a ≤ keyN cfg b) S := by
      apply insertionSort_congr
      intro a ha b hb
      obtain ⟨i, hi⟩ := hidx a ha
      obtain ⟨j, hj⟩ := hidx b hb
      exact trackCompare_le_iff hi hj
    rw [hcong]
    haveI : IsTotal TrackEntry (fun a b => keyN cfg a ≤ keyN cfg b) :=
      ⟨fun a b => Nat.le_total _ _⟩
    haveI : IsTrans TrackEntry (fun a b => keyN cfg a ≤ keyN cfg b) :=
      ⟨fun a b c h1 h2 => Nat.le_trans h1 h2⟩
    have hsorted := List.sorted_insertionSort (fun a b => keyN cfg a ≤ keyN cfg b) S
    have hmem : ∀ e ∈ List.insertionSort (fun a b => keyN cfg a ≤ keyN cfg b) S,
        ∃ i, canonIdx cfg e = some i := by
      intro e he
      exact hidx e ((List.perm_insertionSort _ S).mem_iff.mp he)
    apply List.Pairwise.imp_of_mem ?_ hsorted
    intro a b ha hb hle
    obtain ⟨i, hi⟩ := hmem a ha
    obtain ⟨j, hj⟩ := hmem b hb
    refine ⟨i, j, hi, hj, ?_⟩
    unfold keyN at hle
    rw [hi, hj] at hle
    simpa using hle

/-- Distinct surviving paths receive distinct canonical indices. -/
theorem canonIdx_inj {cfg : PropConfig} {a b : TrackEntry} {i j : Nat}
    (hne : a.pathToProp ≠ b.pathToProp)
    (ha : canonIdx cfg a = some i) (hb : canonIdx cfg b = some j) : i ≠ j := by
  unfold canonIdx getOrderingOfPropTypeConfig at ha hb
  exact assocLookup_orderingFrom_inj (canonicalKeys cfg) 0
    (encodePath a.pathToProp) (encodePath b.pathToProp) i j
    (fun he => hne (encodePath_injective he)) ha hb

/-- The congruence step shared by the sorting arguments: on a survivor
list the source's comparator relation coincides with comparison of the
defaulted canonical keys. -/
theorem insertionSort_comparator_eq (cfg : PropConfig) (S : List TrackEntry)
    (hidx : ∀ e ∈ S, ∃ i, canonIdx cfg e = some i) :
    List.insertionSort
        (fun a b => trackCompare (getOrderingOfPropTypeConfig cfg) a b ≤ 0) S
      = List.insertionSort (fun a b => keyN cfg a ≤ keyN cfg b) S := by
  apply insertionSort_congr
  intro a ha b hb
  obtain ⟨i, hi⟩ := hidx a ha
  obtain ⟨j, hj⟩ := hidx b hb
  exact trackCompare_le_iff hi hj

/-- With pairwise distinct surviving paths, the sorted output is a
function of the multiset of survivors only: permuting the raw track map
does not change the output order. -/
theorem tracks_perm_invariant (cfg : PropConfig) (l l2 : List (String × String))
    (hperm : l.Perm l2)
    (hnd : ((l.filterMap (entrySurvivor cfg)).map TrackEntry.pathToProp).Nodup) :
    (getArrayOfValidSequenceTracks cfg (some l)).tracks
      = (getArrayOfValidSequenceTracks cfg (some l2)).tracks := by
  have hpermS : (l.filterMap (entrySurvivor cfg)).Perm (l2.filterMap (entrySurvivor cfg)) :=
    hperm.filterMap (entrySurvivor cfg)
  have hidx1 := survivors_idx_isSome cfg l
  have hidx2 := survivors_idx_isSome cfg l2
  have hsym : ∀ {x y : TrackEntry},
      x.pathToProp ≠ y.pathToProp → y.pathToProp ≠ x.pathToProp :=
    fun h => fun he => h he.symm
  have hpw1 : (l.filterMap (entrySurvivor cfg)).Pairwise
      (fun a b => a.pathToProp ≠ b.pathToProp) :=
    List.pairwise_map.mp hnd
  have hpw2 : (l2.filterMap (entrySurvivor cfg)).Pairwise
      (fun a b => a.pathToProp ≠ b.pathToProp) :=
    (hpermS.pairwise_iff hsym).mp hpw1
  rw [tracks_eq_insertionSort, tracks_eq_insertionSort,
    insertionSort_comparator_eq cfg _ hidx1, insertionSort_comparator_eq cfg _ hidx2]
  haveI : IsTotal TrackEntry (fun a b => keyN cfg a ≤ keyN cfg b) :=
    ⟨fun a b => Nat.le_total _ _⟩
  haveI : IsTrans TrackEntry (fun a b => keyN cfg a ≤ keyN cfg b) :=
    ⟨fun a b c h1 h2 => Nat.le_trans h1 h2⟩
  haveI : IsAntisymm TrackEntry (fun a b => keyN cfg a < keyN cfg b) :=
    ⟨fun a b h1 h2 => absurd (Nat.lt_trans h1 h2) (Nat.lt_irrefl _)⟩
  have hp : (List.insertionSort (fun a b => keyN cfg a ≤ keyN cfg b)
        (l.filterMap (entrySurvivor cfg))).Perm
      (List.insertionSort (fun a b => keyN cfg a ≤ keyN cfg b)
        (l2.filterMap (entrySurvivor cfg))) :=
    ((List.perm_insertionSort _ _).trans hpermS).trans
      (List.perm_insertionSort _ _).symm
  have hstrict : ∀ (S : List TrackEntry),
      (∀ e ∈ S, ∃ i, canonIdx cfg e = some i) →
      S.Pairwise (fun a b => a.pathToProp ≠ b.pathToProp) →
      List.Sorted (fun a b => keyN cfg a < keyN cfg b)
        (List.insertionSort (fun a b => keyN cfg a ≤ keyN cfg b) S) := by
    intro S hidx hpw
    have hsorted := List.sorted_insertionSort (fun a b => keyN cfg a ≤ keyN cfg b) S
    have hpwS : (List.insertionSort (fun a b => keyN cfg a ≤ keyN cfg b) S).Pairwise
        (fun a b => a.pathToProp ≠ b.pathToProp) :=
      ((List.perm_insertionSort _ S).pairwise_iff hsym).mpr hpw
    have hcomb := List.Pairwise.and hsorted hpwS
    apply List.Pairwise.imp_of_mem ?_ hcomb
    intro a b ha hb hab
    obtain ⟨hle, hne⟩ := hab
    have hamem : a ∈ S := (List.perm_insertionSort _ S).mem_iff.mp ha
    have hbmem : b ∈ S := (List.perm_insertionSort _ S).mem_iff.mp hb
    obtain ⟨i, hi⟩ := hidx a hamem
    obtain ⟨j, hj⟩ := hidx b hbmem
    have hij : i ≠ j := canonIdx_inj hne hi hj
    have hki : keyN cfg a = i := by simp [keyN, hi]
    have hkj : keyN cfg b = j := by simp [keyN, hj]
    omega
  exact List.eq_of_perm_of_sorted hp
    (hstrict _ hidx1 hpw1) (hstrict _ hidx2 hpw2)

/-! ### Skipped entries -/

/-- The warnings of a pass, by definition of the view. -/
theorem warnings_eq (cfg : PropConfig) (entries : List (String × String)) :
    (getArrayOfValidSequenceTracks cfg (some entries)).warnings = warningsOf entries := by
  simp only [getArrayOfValidSequenceTracks]
  by_cases h : (entries.filterMap (entrySurvivor cfg)).length = 0
  · simp [h]
  · simp [h]

/-- Dropping a non-surviving entry anywhere in the map leaves the
survivors unchanged. -/
theorem filterMap_drop_middle {α β : Type} (f : α → Option β) (xs ys : List α) (x : α)
    (hx : f x = none) :
    (xs ++ x :: ys).filterMap f = (xs ++ ys).filterMap f := by
  simp [List.filterMap_append, List.filterMap_cons, hx]

/-- A malformed key never survives. -/
theorem entrySurvivor_of_parse_none {cfg : PropConfig} {k tid : String}
    (h : parsePathToProp k = none) : entrySurvivor cfg (k, tid) = none := by
  simp [entrySurvivor, h]

/-- A decoded but unresolvable (or non-sequencable) key never survives. -/
theorem entrySurvivor_of_stale {cfg : PropConfig} {k tid : String} {p : PathToProp}
    (hdec : (parsePathToProp k).bind jsonToPath = some p)
    (hns : ∀ pc, getPropConfigByPath cfg p = some pc → isPropConfSequencable pc = false) :
    entrySurvivor cfg (k, tid) = none := by
  cases hp : parsePathToProp k with
  | none => rw [hp] at hdec; simp at hdec
  | some j =>
    rw [hp] at hdec
    simp only [Option.bind_eq_bind, Option.some_bind] at hdec
    have hjarr : ∃ xs, j = Json.arr xs := by
      cases j with
      | arr xs => exact ⟨xs, rfl⟩
      | null => simp [jsonToPath] at hdec
      | bool b => simp [jsonToPath] at hdec
      | num n => simp [jsonToPath] at hdec
      | str s => simp [jsonToPath] at hdec
      | obj fs => simp [jsonToPath] at hdec
    obtain ⟨xs, rfl⟩ := hjarr
    have hfalsy : jsFalsy (Json.arr xs) = false := rfl
    simp only [entrySurvivor, hp, hfalsy, Bool.false_eq_true, if_false, ite_false, hdec]
    cases hc : getPropConfigByPath cfg p with
    | none => rfl
    | some pc => simp [hns pc hc]

/-- One malformed entry is skipped with exactly one diagnostic, and every
other entry of the same map is processed as if the malformed entry were
absent. -/
theorem resolve_skip_malformed (cfg : PropConfig) (xs ys : List (String × String))
    (k tid : String) (h : parsePathToProp k = none) :
    (getArrayOfValidSequenceTracks cfg (some (xs ++ (k, tid) :: ys))).tracks
        = (getArrayOfValidSequenceTracks cfg (some (xs ++ ys))).tracks
      ∧ (getArrayOfValidSequenceTracks cfg (some (xs ++ (k, tid) :: ys))).warnings
        = warningsOf xs ++ k :: warningsOf ys := by
  constructor
  · rw [tracks_eq_insertionSort, tracks_eq_insertionSort,
      filterMap_drop_middle (entrySurvivor cfg) xs ys (k, tid)
        (entrySurvivor_of_parse_none h)]
  · rw [warnings_eq]
    simp [warningsOf, List.filterMap_append, List.filterMap_cons, h]

/-- One stale entry (decoded path that does not resolve to a sequencable
leaf) is skipped silently: the whole result, warnings included, is that of
the map without it. -/
theorem resolve_skip_stale (cfg : PropConfig) (xs ys : List (String × String))
    (k tid : String) (p : PathToProp)
    (hdec : (parsePathToProp k).bind jsonToPath = some p)
    (hns : ∀ pc, getPropConfigByPath cfg p = some pc → isPropConfSequencable pc = false) :
    getArrayOfValidSequenceTracks cfg (some (xs ++ (k, tid) :: ys))
      = getArrayOfValidSequenceTracks cfg (some (xs ++ ys)) := by
  have hsome : (parsePathToProp k).isSome := by
    cases hp : parsePathToProp k with
    | none => rw [hp] at hdec; simp at hdec
    | some j => rfl
  have htracks : (getArrayOfValidSequenceTracks cfg (some (xs ++ (k, tid) :: ys))).tracks
      = (getArrayOfValidSequenceTracks cfg (some (xs ++ ys))).tracks := by
    rw [tracks_eq_insertionSort, tracks_eq_insertionSort,
      filterMap_drop_middle (entrySurvivor cfg) xs ys (k, tid)
        (entrySurvivor_of_stale hdec hns)]
  have hwarn : (getArrayOfValidSequenceTracks cfg (some (xs ++ (k, tid) :: ys))).warnings
      = (getArrayOfValidSequenceTracks cfg (some (xs ++ ys))).warnings := by
    rw [warnings_eq, warnings_eq]
    have : (parsePathToProp k).isNone = false := by
      cases hp : parsePathToProp k with
      | none => rw [hp] at hdec; simp at hdec
      | some j => rfl
    simp [warningsOf, List.filterMap_append, List.filterMap_cons, this]
  cases hl : getArrayOfValidSequenceTracks cfg (some (xs ++ (k, tid) :: ys)) with
  | mk t w =>
    cases hr : getArrayOfValidSequenceTracks cfg (some (xs ++ ys)) with
    | mk t2 w2 =>
      rw [hl] at htracks
      rw [hr] at htracks
      rw [hl] at hwarn
      rw [hr] at hwarn
      simp at htracks hwarn
      simp [htracks, hwarn]

/-! ### Tree projection -/

/-- Setting a key makes it present. -/
theorem assocLookup_assocSet_self : ∀ (ch : List (String × TrackTree)) (k : String)
    (v : TrackTree), assocLookup (assocSet ch k v) k = some v := by
  intro ch
  induction ch with
  | nil => intro k v; simp [assocSet, assocLookup]
  | cons kv ch ih =>
    intro k v
    obtain ⟨k2, v2⟩ := kv
    by_cases hk : k2 = k
    · subst hk
      simp [assocSet, assocLookup]
    · simp [assocSet, assocLookup, hk, ih]

/-- Setting a key leaves other keys unchanged. -/
theorem assocLookup_assocSet_other : ∀ (ch : List (String × TrackTree)) (k k2 : String)
    (v : TrackTree), k ≠ k2 →
    assocLookup (assocSet ch k v) k2 = assocLookup ch k2 := by
  intro ch
  induction ch with
  | nil => intro k k2 v hne; simp [assocSet, assocLookup, hne]
  | cons kv ch ih =>
    intro k k2 v hne
    obtain ⟨k0, v0⟩ := kv
    by_cases hk : k0 = k
    · subst hk
      have hk2 : ¬(k0 = k2) := hne
      simp [assocSet, assocLookup, hk2]
    · by_cases hk2 : k0 = k2
      · subst hk2
        simp [assocSet, assocLookup, hk]
      · simp [assocSet, assocLookup, hk, hk2, ih _ _ _ hne]

/-- One step of tree lookup at an inner node. -/
theorem treeLookup_node_cons (ch : List (String × TrackTree)) (k : String) (p : List String) :
    treeLookup (TrackTree.node ch) (k :: p)
      = (match assocLookup ch k with
          | some sub => treeLookup sub p
          | none => none) := rfl

/-- The inserted track id is reachable at its own (nonempty) path. -/
theorem treeLookup_setPath_self : ∀ (p : List String) (t : TrackTree) (tid : String),
    p ≠ [] → treeLookup (setPath t p tid) p = some tid := by
  intro p
  induction p with
  | nil => intro t tid h; exact absurd rfl h
  | cons k rest ih =>
    intro t tid _
    cases rest with
    | nil =>
      cases t <;>
        simp [setPath, treeLookup, assocLookup_assocSet_self]
    | cons k2 rest2 =>
      cases t with
      | id x =>
        have hset : setPath (TrackTree.id x) (k :: k2 :: rest2) tid
            = TrackTree.node (assocSet [] k
                (setPath (TrackTree.node []) (k2 :: rest2) tid)) := rfl
        rw [hset, treeLookup_node_cons, assocLookup_assocSet_self]
        exact ih _ _ (by simp)
      | node ch =>
        have hset : setPath (TrackTree.node ch) (k :: k2 :: rest2) tid
            = TrackTree.node (assocSet ch k
                (setPath (match assocLookup ch k with
                  | some s => s
                  | none => TrackTree.node []) (k2 :: rest2) tid)) := rfl
        rw [hset, treeLookup_node_cons, assocLookup_assocSet_self]
        exact ih _ _ (by simp)

/-- Inserting at one path leaves lookups at any disjoint path unchanged. -/
theorem treeLookup_setPath_frame : ∀ (q p : List String) (t : TrackTree) (tid : String),
    ¬(p.isPrefixOf q = true) → ¬(q.isPrefixOf p = true) →
    treeLookup (setPath t q tid) p = treeLookup t p := by
  intro q
  induction q with
  | nil => intro p t tid h1 h2; rfl
  | cons k2 q2 ihq =>
    intro p t tid h1 h2
    cases p with
    | nil => exact absurd rfl h1
    | cons k p2 =>
      by_cases hk : k = k2
      · subst hk
        have hbeq : (k == k) = true := beq_self_eq_true k
        have hp2 : ¬(p2.isPrefixOf q2 = true) := by
          intro hc
          exact h1 (by simp [List.isPrefixOf, hbeq, hc])
        have hq2 : ¬(q2.isPrefixOf p2 = true) := by
          intro hc
          exact h2 (by simp [List.isPrefixOf, hbeq, hc])
        have hq2ne : q2 ≠ [] := by
          intro hc
          subst hc
          exact h2 (by simp [List.isPrefixOf, hbeq])
        obtain ⟨kq, q3, hq3⟩ := List.exists_cons_of_ne_nil hq2ne
        subst hq3
        cases t with
        | id x =>
          have hset : setPath (TrackTree.id x) (k :: kq :: q3) tid
              = TrackTree.node (assocSet [] k
                  (setPath (TrackTree.node []) (kq :: q3) tid)) := rfl
          rw [hset, treeLookup_node_cons, assocLookup_assocSet_self]
          show treeLookup (setPath (TrackTree.node []) (kq :: q3) tid) p2
              = treeLookup (TrackTree.id x) (k :: p2)
          rw [ihq p2 _ tid hp2 hq2]
          cases p2 <;> rfl
        | node ch =>
          have hset : setPath (TrackTree.node ch) (k :: kq :: q3) tid
              = TrackTree.node (assocSet ch k
                  (setPath (match assocLookup ch k with
                    | some s => s
                    | none => TrackTree.node []) (kq :: q3) tid)) := rfl
          cases hl : assocLookup ch k with
          | some s =>
            simp only [hl] at hset
            rw [hset, treeLookup_node_cons, assocLookup_assocSet_self]
            show treeLookup (setPath s (kq :: q3) tid) p2
                = treeLookup (TrackTree.node ch) (k :: p2)
            rw [ihq p2 s tid hp2 hq2, treeLookup_node_cons, hl]
          | none =>
            simp only [hl] at hset
            rw [hset, treeLookup_node_cons, assocLookup_assocSet_self]
            show treeLookup (setPath (TrackTree.node []) (kq :: q3) tid) p2
                = treeLookup (TrackTree.node ch) (k :: p2)
            rw [ihq p2 _ tid hp2 hq2, treeLookup_node_cons, hl]
            cases p2 <;> rfl
      · have hne : k2 ≠ k := fun h => hk h.symm
        cases t with
        | id x =>
          have hset : ∃ X, setPath (TrackTree.id x) (k2 :: q2) tid
              = TrackTree.node (assocSet [] k2 X) := ⟨_, rfl⟩
          obtain ⟨X, hX⟩ := hset
          rw [hX, treeLookup_node_cons, assocLookup_assocSet_other [] k2 k X hne]
          rfl
        | node ch =>
          have hset : ∃ X, setPath (TrackTree.node ch) (k2 :: q2) tid
              = TrackTree.node (assocSet ch k2 X) := ⟨_, rfl⟩
          obtain ⟨X, hX⟩ := hset
          rw [hX, treeLookup_node_cons, assocLookup_assocSet_other ch k2 k X hne,
            treeLookup_node_cons]

/-- Path keys of one entry, as object property names. -/
def entryKeys (e : TrackEntry) : List String := e.pathToProp.map segKey

/-- Two string paths are disjoint when neither is a prefix of the other
(this also rules out equality). -/
def pathsDisjoint (p q : List String) : Prop :=
  ¬(p.isPrefixOf q = true) ∧ ¬(q.isPrefixOf p = true)

instance (p q : List String) : Decidable (pathsDisjoint p q) := by
  unfold pathsDisjoint
  infer_instance

/-- Folding insertions at paths all disjoint from p does not change the
lookup at p. -/
theorem treeLookup_foldl_frame : ∀ (es : List TrackEntry) (t : TrackTree) (p : List String),
    (∀ e ∈ es, pathsDisjoint p (entryKeys e)) →
    treeLookup (es.foldl (fun m e => setPath m (entryKeys e) e.trackId) t) p
      = treeLookup t p := by
  intro es
  induction es with
  | nil => intro t p _; rfl
  | cons e es ih =>
    intro t p hd
    have hde : pathsDisjoint p (entryKeys e) := hd e (by simp)
    simp only [List.foldl_cons]
    rw [ih _ p (fun x hx => hd x (by simp [hx]))]
    exact treeLookup_setPath_frame (entryKeys e) p t e.trackId hde.1 hde.2

/-- Projecting pairwise disjoint entries makes every track id reachable at
its own path: no insertion overwrites another. -/
theorem projectToTree_reachable_aux : ∀ (entries : List TrackEntry) (t : TrackTree),
    (∀ e ∈ entries, entryKeys e ≠ []) →
    entries.Pairwise (fun a b => pathsDisjoint (entryKeys a) (entryKeys b)) →
    ∀ e ∈ entries,
      treeLookup (entries.foldl (fun m x => setPath m (entryKeys x) x.trackId) t)
        (entryKeys e) = some e.trackId := by
  intro entries
  induction entries with
  | nil => intro t _ _ e he; simp at he
  | cons e0 es ih =>
    intro t hne hpw e he
    have hpw0 : ∀ x ∈ es, pathsDisjoint (entryKeys e0) (entryKeys x) :=
      (List.pairwise_cons.mp hpw).1
    have hpwes := (List.pairwise_cons.mp hpw).2
    simp only [List.foldl_cons]
    cases he with
    | head =>
      rw [treeLookup_foldl_frame es _ (entryKeys e0)
        (fun x hx => hpw0 x hx)]
      exact treeLookup_setPath_self (entryKeys e0) t e0.trackId (hne e0 (by simp))
    | tail _ hmem =>
      exact ih _ (fun x hx => hne x (by simp [hx])) hpwes e hmem

/-- The tree projection of pairwise disjoint entries keeps every leaf
reachable. -/
theorem projectToTree_reachable (entries : List TrackEntry)
    (hne : ∀ e ∈ entries, entryKeys e ≠ [])
    (hpw : entries.Pairwise (fun a b => pathsDisjoint (entryKeys a) (entryKeys b))) :
    ∀ e ∈ entries, treeLookup (projectToTree entries) (entryKeys e) = some e.trackId := by
  intro e he
  unfold projectToTree
  exact projectToTree_reachable_aux entries (TrackTree.node []) hne hpw e he

/-! ### Structural lookup -/

/-- getDeep finds exactly the values stored along existing paths. -/
theorem getDeep_some_iff : ∀ (p : PathToProp) (t v : Json),
    getDeep t p = some v ↔ HasPath t p v := by
  intro p
  induction p with
  | nil =>
    intro t v
    constructor
    · intro h
      simp only [getDeep, Option.some_inj] at h
      subst h
      exact HasPath.nil t
    · intro h
      cases h
      cases t <;> rfl
  | cons seg rest ih =>
    intro t v
    cases seg with
    | str k =>
      cases t with
      | obj fields =>
        cases hl : assocLookup fields k with
        | some u =>
          constructor
          · intro h
            simp only [getDeep, hl] at h
            exact HasPath.obj hl ((ih u v).mp h)
          · intro h
            cases h with
            | obj hf hrest =>
              rw [hl] at hf
              injection hf with he
              subst he
              simp only [getDeep, hl]
              exact (ih u v).mpr hrest
        | none =>
          constructor
          · intro h
            simp only [getDeep, hl] at h
            exact Option.noConfusion h
          · intro h
            cases h with
            | obj hf hrest => rw [hl] at hf; exact Option.noConfusion hf
      | null => exact ⟨fun h => Option.noConfusion h, fun h => nomatch h⟩
      | bool b => exact ⟨fun h => Option.noConfusion h, fun h => nomatch h⟩
      | num n => exact ⟨fun h => Option.noConfusion h, fun h => nomatch h⟩
      | str s => exact ⟨fun h => Option.noConfusion h, fun h => nomatch h⟩
      | arr xs => exact ⟨fun h => Option.noConfusion h, fun h => nomatch h⟩
    | num i =>
      cases t with
      | arr xs =>
        by_cases hi : i < 0
        · constructor
          · intro h
            simp only [getDeep, hi, if_true, ite_true] at h
            exact Option.noConfusion h
          · intro h
            cases h with
            | arr hge hg hrest => omega
        · cases hg : xs.get? i.toNat with
          | some u =>
            constructor
            · intro h
              simp only [getDeep, hi, if_false, ite_false, hg] at h
              exact HasPath.arr (by omega) hg ((ih u v).mp h)
            · intro h
              cases h with
              | arr hge hg2 hrest =>
                rw [hg] at hg2
                injection hg2 with he
                subst he
                simp only [getDeep, hi, if_false, ite_false, hg]
                exact (ih u v).mpr hrest
          | none =>
            constructor
            · intro h
              simp only [getDeep, hi, if_false, ite_false, hg] at h
              exact Option.noConfusion h
            · intro h
              cases h with
              | arr hge hg2 hrest => rw [hg] at hg2; exact Option.noConfusion hg2
      | null => exact ⟨fun h => Option.noConfusion h, fun h => nomatch h⟩
      | bool b => exact ⟨fun h => Option.noConfusion h, fun h => nomatch h⟩
      | num n => exact ⟨fun h => Option.noConfusion h, fun h => nomatch h⟩
      | str s => exact ⟨fun h => Option.noConfusion h, fun h => nomatch h⟩
      | obj fields => exact ⟨fun h => Option.noConfusion h, fun h => nomatch h⟩

/-- getDeep returns undefined exactly on absent paths, never an error. -/
theorem getDeep_none_iff (p : PathToProp) (t : Json) :
    getDeep t p = none ↔ ¬∃ v, HasPath t p v := by
  constructor
  · intro h ⟨v, hv⟩
    rw [← getDeep_some_iff] at hv
    rw [h] at hv
    exact Option.noConfusion hv
  · intro h
    cases hg : getDeep t p with
    | none => rfl
    | some v => exact absurd ⟨v, (getDeep_some_iff p t v).mp hg⟩ h

/-! ### Comparator facts -/

/-- On equal canonical indices the two-way comparator answers -1. -/
theorem trackCompare_eq_idx {mapping : List (String × Nat)} {a b : TrackEntry} {i : Nat}
    (ha : assocLookup mapping (encodePath a.pathToProp) = some i)
    (hb : assocLookup mapping (encodePath b.pathToProp) = some i) :
    trackCompare mapping a b = -1 := by
  unfold trackCompare
  rw [ha, hb]
  simp

/-- The two-way comparator never answers 0. -/
theorem trackCompare_ne_zero (mapping : List (String × Nat)) (a b : TrackEntry) :
    trackCompare mapping a b ≠ 0 := by
  unfold trackCompare
  cases h1 : assocLookup mapping (encodePath a.pathToProp) with
  | none => simp
  | some i =>
    cases h2 : assocLookup mapping (encodePath b.pathToProp) with
    | none => simp
    | some j =>
      by_cases hij : j < i
      · simp [hij]
      · simp [hij]

/-- With canonical raw keys (each key is the stored-key encoding of its own
decoded path) and distinct raw keys, the surviving paths are distinct. -/
theorem survivors_paths_nodup : ∀ (cfg : PropConfig) (l : List (String × String)),
    (∀ kv ∈ l, ∀ p : PathToProp, (parsePathToProp kv.1).bind jsonToPath = some p →
      kv.1 = encodePath p) →
    (l.map Prod.fst).Nodup →
    ((l.filterMap (entrySurvivor cfg)).map TrackEntry.pathToProp).Nodup := by
  intro cfg l
  induction l with
  | nil => intro _ _; simp
  | cons kv l ih =>
    intro hcanon hkeys
    have hkeys2 : (l.map Prod.fst).Nodup := (List.nodup_cons.mp (by simpa using hkeys)).2
    have hnotin : kv.1 ∉ l.map Prod.fst := (List.nodup_cons.mp (by simpa using hkeys)).1
    cases hs : entrySurvivor cfg kv with
    | none =>
      simp only [List.filterMap_cons, hs]
      exact ih (fun x hx p hp => hcanon x (by simp [hx]) p hp) hkeys2
    | some e =>
      simp only [List.filterMap_cons, hs, List.map_cons]
      rw [List.nodup_cons]
      constructor
      · intro hmem
        obtain ⟨e2, he2mem, he2path⟩ := List.mem_map.mp hmem
        obtain ⟨kv2, hkv2mem, hkv2⟩ := List.mem_filterMap.mp he2mem
        obtain ⟨hdec2, -, -⟩ := entrySurvivor_some hkv2
        obtain ⟨hdec1, -, -⟩ := entrySurvivor_some hs
        have hk1 : kv.1 = encodePath e.pathToProp := hcanon kv (by simp) _ hdec1
        have hk2 : kv2.1 = encodePath e2.pathToProp := hcanon kv2 (by simp [hkv2mem]) _ hdec2
        have hsame : kv2.1 = kv.1 := by rw [hk1, hk2, he2path]
        exact hnotin (by rw [← hsame]; exact List.mem_map_of_mem Prod.fst hkv2mem)
      · exact ih (fun x hx p hp => hcanon x (by simp [hx]) p hp) hkeys2

/-! ### Claims -/

/-- A two-leaf schema used to instantiate the claims on concrete inputs. -/
def cfgAB : PropConfig :=
  PropConfig.comp [("a", PropConfig.leaf true Json.null),
    ("b", PropConfig.leaf true Json.null)]

/-- A one-leaf schema used by the counterexamples. -/
def cfgA : PropConfig := PropConfig.comp [("a", PropConfig.leaf true Json.null)]

/-- C1: the array of valid sequence tracks is always sorted ascending by
the canonical pre-order index of each surviving path (unconditionally,
for every raw track map), and - amended - when no two distinct raw keys
decode to the same surviving path, permuting the insertion order of the
raw track map does not change the output order. -/
theorem C1_sorted_perm_invariant (cfg : PropConfig) (tm : List (String × String)) :
    (getArrayOfValidSequenceTracks cfg (some tm)).tracks.Pairwise
        (fun a b => ∃ i j, canonIdx cfg a = some i ∧ canonIdx cfg b = some j ∧ i ≤ j)
      ∧ ∀ tm2 : List (String × String), tm.Perm tm2 →
          ((tm.filterMap (entrySurvivor cfg)).map TrackEntry.pathToProp).Nodup →
          (getArrayOfValidSequenceTracks cfg (some tm)).tracks
            = (getArrayOfValidSequenceTracks cfg (some tm2)).tracks :=
  ⟨tracks_sorted cfg (some tm),
    fun tm2 hperm hnd => tracks_perm_invariant cfg tm tm2 hperm hnd⟩

/-- C1, witness: the two-leaf schema sorts a permuted two-entry map into
the same canonical order. -/
theorem C1_witness :
    (getArrayOfValidSequenceTracks cfgAB (some [("[\"b\"]", "t2"), ("[\"a\"]", "t1")])).tracks
      = (getArrayOfValidSequenceTracks cfgAB (some [("[\"a\"]", "t1"), ("[\"b\"]", "t2")])).tracks :=
  (C1_sorted_perm_invariant cfgAB [("[\"b\"]", "t2"), ("[\"a\"]", "t1")]).2
    [("[\"a\"]", "t1"), ("[\"b\"]", "t2")] (by decide) (by decide)

/-- C1, counterexample: two distinct raw keys that decode to the same path
(one key contains JSON whitespace) both survive with the same canonical
index; permuting the insertion order then changes the output order, so the
unconditional permutation-invariance part of the claim is false. -/
theorem C1_counterexample :
    ([("[\"a\"]", "t1"), ("[ \"a\" ]", "t2")] : List (String × String)).Perm
        [("[ \"a\" ]", "t2"), ("[\"a\"]", "t1")]
      ∧ (getArrayOfValidSequenceTracks cfgA
            (some [("[\"a\"]", "t1"), ("[ \"a\" ]", "t2")])).tracks
        ≠ (getArrayOfValidSequenceTracks cfgA
            (some [("[ \"a\" ]", "t2"), ("[\"a\"]", "t1")])).tracks :=
  ⟨by decide, by decide⟩

/-- C2: a stored track key whose string is not valid JSON is skipped with
exactly one diagnostic, the batch is not aborted, and every other entry of
the same raw track map is processed as if the malformed entry were absent
(amended: decode fails exactly on JSON parse failure; a string parsing to
a non-array value is accepted at decode and dropped later, silently). -/
theorem C2_malformed_skipped (cfg : PropConfig) (xs ys : List (String × String))
    (k tid : String) (h : parsePathToProp k = none) :
    (getArrayOfValidSequenceTracks cfg (some (xs ++ (k, tid) :: ys))).tracks
        = (getArrayOfValidSequenceTracks cfg (some (xs ++ ys))).tracks
      ∧ (getArrayOfValidSequenceTracks cfg (some (xs ++ (k, tid) :: ys))).warnings
        = warningsOf xs ++ k :: warningsOf ys :=
  resolve_skip_malformed cfg xs ys k tid h

/-- C2, witness: one corrupted key among two valid entries yields exactly
one diagnostic. -/
theorem C2_witness :
    (getArrayOfValidSequenceTracks cfgAB
        (some ([("[\"a\"]", "ta")] ++ ("]junk", "tx") :: [("[\"b\"]", "tb")]))).warnings
      = warningsOf [("[\"a\"]", "ta")] ++ "]junk" :: warningsOf [("[\"b\"]", "tb")] :=
  (C2_malformed_skipped cfgAB [("[\"a\"]", "ta")] [("[\"b\"]", "tb")] "]junk" "tx" rfl).2

/-- C2, counterexample: the string "5" does not parse into an array of
string or integer segments, yet decode succeeds on it (returning the
number 5), and the entry is dropped later without any diagnostic - against
the claim that decode fails with MalformedPath exactly on such strings. -/
theorem C2_counterexample :
    parsePathToProp "5" = some (Json.num 5)
      ∧ getArrayOfValidSequenceTracks cfgA (some [("5", "t1"), ("[\"a\"]", "t2")])
        = ⟨[⟨[PathSeg.str "a"], "t2"⟩], []⟩ :=
  ⟨rfl, by decide⟩

/-- C3: an entry whose decoded path does not resolve to a leaf of the
current schema, or resolves to a non-sequencable leaf, is excluded
silently (warnings included, the result is that of the map without it)
and every other entry is unaffected. -/
theorem C3_stale_dropped (cfg : PropConfig) (xs ys : List (String × String))
    (k tid : String) (p : PathToProp)
    (hdec : (parsePathToProp k).bind jsonToPath = some p)
    (hns : ∀ pc, getPropConfigByPath cfg p = some pc → isPropConfSequencable pc = false) :
    getArrayOfValidSequenceTracks cfg (some (xs ++ (k, tid) :: ys))
      = getArrayOfValidSequenceTracks cfg (some (xs ++ ys)) :=
  resolve_skip_stale cfg xs ys k tid p hdec hns

/-- C3, witness: a stale path among two valid entries changes nothing. -/
theorem C3_witness :
    getArrayOfValidSequenceTracks cfgAB
        (some ([("[\"a\"]", "ta")] ++ ("[\"bogus\"]", "tx") :: [("[\"b\"]", "tb")]))
      = getArrayOfValidSequenceTracks cfgAB (some ([("[\"a\"]", "ta")] ++ [("[\"b\"]", "tb")])) :=
  C3_stale_dropped cfgAB [("[\"a\"]", "ta")] [("[\"b\"]", "tb")] "[\"bogus\"]" "tx"
    [PathSeg.str "bogus"] rfl (fun _ h => Option.noConfusion h)

/-- C4: projecting entries with pairwise disjoint (and nonempty) key paths
into the nested map keeps every track id reachable at its own path: no
leaf insertion overwrites another. -/
theorem C4_tree_exclusive (entries : List TrackEntry)
    (hne : ∀ e ∈ entries, entryKeys e ≠ [])
    (hpw : entries.Pairwise (fun a b => pathsDisjoint (entryKeys a) (entryKeys b))) :
    ∀ e ∈ entries, treeLookup (projectToTree entries) (entryKeys e) = some e.trackId :=
  projectToTree_reachable entries hne hpw

/-- C4, witness: two disjoint paths are both reachable after projection. -/
theorem C4_witness :
    treeLookup (projectToTree [⟨[PathSeg.str "a", PathSeg.str "b"], "t1"⟩,
        ⟨[PathSeg.str "c"], "t2"⟩]) ["a", "b"] = some "t1" :=
  C4_tree_exclusive [⟨[PathSeg.str "a", PathSeg.str "b"], "t1"⟩, ⟨[PathSeg.str "c"], "t2"⟩]
    (by decide) (by decide) ⟨[PathSeg.str "a", PathSeg.str "b"], "t1"⟩ (by decide)

/-- C5: the source's sort comparator is two-way: it returns -1 (never 0)
for entries with equal canonical-order keys; and - amended - distinct
surviving entries cannot share a key provided every raw key is the
canonical encoding of its decoded path and the raw keys are distinct
(JavaScript object keys are): then the surviving paths are pairwise
distinct. -/
theorem C5_comparator (mapping : List (String × Nat)) (a b : TrackEntry) (i : Nat)
    (cfg : PropConfig) (l : List (String × String))
    (ha : assocLookup mapping (encodePath a.pathToProp) = some i)
    (hb : assocLookup mapping (encodePath b.pathToProp) = some i)
    (hcanon : ∀ kv ∈ l, ∀ p : PathToProp,
      (parsePathToProp kv.1).bind jsonToPath = some p → kv.1 = encodePath p)
    (hkeys : (l.map Prod.fst).Nodup) :
    trackCompare mapping a b = -1
      ∧ (∀ x y : TrackEntry, trackCompare mapping x y ≠ 0)
      ∧ ((l.filterMap (entrySurvivor cfg)).map TrackEntry.pathToProp).Nodup :=
  ⟨trackCompare_eq_idx ha hb, fun x y => trackCompare_ne_zero mapping x y,
    survivors_paths_nodup cfg l hcanon hkeys⟩

/-- C5, witness: two surviving entries over the same path compare to -1. -/
theorem C5_witness :
    trackCompare [("[\"a\"]", 0)] ⟨[PathSeg.str "a"], "t1"⟩ ⟨[PathSeg.str "a"], "t2"⟩ = -1 :=
  (C5_comparator [("[\"a\"]", 0)] ⟨[PathSeg.str "a"], "t1"⟩ ⟨[PathSeg.str "a"], "t2"⟩ 0
    cfgA [("[\"a\"]", "t1")] rfl rfl
    (by
      intro kv hkv p hp
      simp only [List.mem_singleton] at hkv
      subst hkv
      have hdec : (parsePathToProp "[\"a\"]").bind jsonToPath = some [PathSeg.str "a"] := rfl
      rw [hdec] at hp
      injection hp with he
      subst he
      rfl)
    (by decide)).1

/-- C5, counterexample: two raw keys decoding to the same path (one with
JSON whitespace) both survive as distinct entries with equal canonical
index, so equal-key comparisons between distinct surviving entries do
occur - against the uniqueness part of the claim. -/
theorem C5_counterexample :
    ([("[\"a\"]", "t1"), ("[ \"a\" ]", "t2")] : List (String × String)).filterMap
        (entrySurvivor cfgA)
      = [⟨[PathSeg.str "a"], "t1"⟩, ⟨[PathSeg.str "a"], "t2"⟩]
    ∧ (⟨[PathSeg.str "a"], "t1"⟩ : TrackEntry) ≠ ⟨[PathSeg.str "a"], "t2"⟩
    ∧ canonIdx cfgA ⟨[PathSeg.str "a"], "t1"⟩ = canonIdx cfgA ⟨[PathSeg.str "a"], "t2"⟩ :=
  ⟨by decide, by decide, rfl⟩

/-- C6: an absent or empty raw track map yields the empty array (never a
null result - the embedding is total), and the view is a pure function of
its inputs: structurally equal inputs give structurally equal outputs. -/
theorem C6_empty_and_deterministic (cfg : PropConfig) :
    getArrayOfValidSequenceTracks cfg none = ⟨[], []⟩
      ∧ getArrayOfValidSequenceTracks cfg (some []) = ⟨[], []⟩
      ∧ ∀ tm tm2 : Option (List (String × String)), tm = tm2 →
          getArrayOfValidSequenceTracks cfg tm = getArrayOfValidSequenceTracks cfg tm2 :=
  ⟨rfl, rfl, fun _ _ h => by rw [h]⟩

/-- C7: decoding the canonical encoding of any representable property path
(an array of string or integer segments) yields the original path. -/
theorem C7_roundtrip (p : PathToProp) :
    (parsePathToProp (encodePath p)).bind jsonToPath = some p :=
  decode_encodePath p

/-- C8: getStaticValues feeds the raw override JSON (with absence and null
defaulted to the empty object) to the schema's deserializeAndSanitize hook
and returns the hook's result, substituting the empty tree for a falsy
hook result; amended: on absent input the result is the hook's output on
the empty tree, not necessarily an empty tree. -/
theorem C8_static_values (hook : Json → Option Json) (j v : Json) (hnn : j ≠ Json.null) :
    getStaticValues hook (some j) = sanitizedOrEmpty (hook j)
      ∧ getStaticValues hook none = sanitizedOrEmpty (hook (Json.obj []))
      ∧ (hook j = some v → jsFalsy v = false → getStaticValues hook (some j) = v)
      ∧ (hook j = none → getStaticValues hook (some j) = Json.obj []) := by
  have h1 : getStaticValues hook (some j) = sanitizedOrEmpty (hook j) := by
    cases j with
    | null => exact absurd rfl hnn
    | bool b => rfl
    | num n => rfl
    | str s => rfl
    | arr xs => rfl
    | obj fs => rfl
  refine ⟨h1, rfl, ?_, ?_⟩
  · intro hv hf
    rw [h1, hv]
    simp [sanitizedOrEmpty, hf]
  · intro hn
    rw [h1, hn]
    rfl

/-- C8, witness: a non-falsy hook result on present input is returned
unchanged. -/
theorem C8_witness :
    getStaticValues (fun x => some x) (some (Json.obj [("a", Json.num 1)]))
      = Json.obj [("a", Json.num 1)] :=
  ((C8_static_values (fun x => some x) (Json.obj [("a", Json.num 1)])
    (Json.obj [("a", Json.num 1)]) (by simp)).2.2.1) rfl rfl

/-- C8, counterexample: with an absent raw override and a hook returning a
nonempty tree on the empty object, getStaticValues returns that tree, not
an empty tree - against the claim that absent input yields an empty
tree. -/
theorem C8_counterexample :
    getStaticValues (fun _ => some (Json.obj [("a", Json.num 1)])) none
        = Json.obj [("a", Json.num 1)]
      ∧ Json.obj [("a", Json.num 1)] ≠ Json.obj [] :=
  ⟨rfl, by simp⟩

/-- C9: looking a pointer path up in the defaults tree returns exactly the
stored value on every existing path and undefined (none, not an error) on
every absent path. -/
theorem C9_lookup (defaults : Json) (path : PathToProp) :
    (∀ v, getDefaultsAtPointer defaults path = some v ↔ HasPath defaults path v)
      ∧ (getDefaultsAtPointer defaults path = none ↔ ¬∃ v, HasPath defaults path v) :=
  ⟨fun v => getDeep_some_iff path defaults v, getDeep_none_iff path defaults⟩

/-- C10: reconfigure replaces only the schema atom; the address, actions,
cache and project reference of the template instance are unchanged. -/
theorem C10_reconfigure_frame (t : SheetObjectTemplateState) (c : PropConfig) :
    (reconfigure t c).config = c
      ∧ (reconfigure t c).address = t.address
      ∧ (reconfigure t c).actions = t.actions
      ∧ (reconfigure t c).cacheId = t.cacheId
      ∧ (reconfigure t c).projectId = t.projectId :=
  ⟨rfl, rfl, rfl, rfl, rfl⟩
